import Mathlib

/-!
# cho: an interactive terminal line selector

A shallow embedding of `main.go`.  Go strings are sequences of runes
(`List Char`, or `String` where the program stores text), Go `int`s are
`Int`, and an index that is out of range (a run-time panic in Go) makes
the embedded operation return `none`.

`truncateAnsi` is the function on a line of valid text, given by its runes.
On the raw bytes of a line the conversions `[]rune(line)` and `string(out)`
are `decodeRunes` and `encodeRunes`, and `truncateAnsiBytes` is the function
with both conversions; a byte that is not valid UTF-8 becomes U+FFFD there.

Two library functions the program calls are not part of the repository:
`runewidth.RuneWidth` is a parameter `RuneWidth : Char → Nat` of every
definition that needs it, and the plain-mode `truncate` function used by
the renderer is a parameter `truncate : String → Int → String → String`.
-/

namespace Cho

/-! ## Navigation state -/

/-- The mutable variables of the render/input loop: `off`, `row`, `dirty`. -/
structure Nav where
  off : Int
  row : Int
  dirty : List Bool
deriving DecidableEq, Repr

/-- State at loop entry: `off := 0`, `row := 0`, every flag `true`. -/
def initNav (lines : List String) : Nav :=
  { off := 0, row := 0, dirty := List.replicate lines.length true }

/-- Read of `xs[i]` with a Go `int` index; `none` is the index panic. -/
def getIdx {α : Type} (xs : List α) (i : Int) : Option α :=
  if 0 ≤ i then xs.get? i.toNat else none

/-- Assignment `xs[i] = v` with a Go `int` index; `none` is the index panic. -/
def setIdx {α : Type} (xs : List α) (i : Int) (v : α) : Option (List α) :=
  if 0 ≤ i ∧ i < xs.length then some (xs.set i.toNat v) else none

/-- The loop `for i := 0; i < len(dirty); i++ { dirty[i] = true }`. -/
def markAll (dirty : List Bool) : List Bool :=
  List.replicate dirty.length true

/-- Body of `case '\t', 'j', 0x0E`. -/
def moveDown (n : Nat) (h : Int) (st : Nav) : Option Nav :=
  if st.row < (n : Int) - 1 then
    match setIdx st.dirty st.row true with
    | none => none
    | some d1 =>
      match setIdx d1 (st.row + 1) true with
      | none => none
      | some d2 =>
        let row := st.row + 1
        if row - st.off ≥ h then
          some { off := st.off + 1, row := row, dirty := markAll d2 }
        else
          some { off := st.off, row := row, dirty := d2 }
  else some st

/-- Body of `case 'k', 0x10`. -/
def moveUp (st : Nav) : Option Nav :=
  if st.row > 0 then
    match setIdx st.dirty st.row true with
    | none => none
    | some d1 =>
      match setIdx d1 (st.row - 1) true with
      | none => none
      | some d2 =>
        let row := st.row - 1
        if row < st.off then
          some { off := st.off - 1, row := row, dirty := markAll d2 }
        else
          some { off := st.off, row := row, dirty := d2 }
  else some st

/-- What one pass of the `switch r` leaves behind. -/
inductive Step where
  | next (st : Nav)
  | confirm (result : String)
  | cancel
  | fault
deriving DecidableEq, Repr

/-- The `switch r` of the loop, for the rune `r` read from the terminal;
`h` is the height this pass got from `tty.Size()`. -/
def keyStep (lines : List String) (h : Int) (st : Nav) (r : Char) : Step :=
  if r = '\t' ∨ r = 'j' ∨ r = Char.ofNat 0x0E then
    match moveDown lines.length h st with
    | some st1 => .next st1
    | none => .fault
  else if r = 'k' ∨ r = Char.ofNat 0x10 then
    match moveUp st with
    | some st1 => .next st1
    | none => .fault
  else if r = Char.ofNat 13 then
    match getIdx lines st.row with
    | some line => .confirm line
    | none => .fault
  else if r = Char.ofNat 27 then .cancel
  else .next st

/-! ## Strings -/

/-- The escape character `'\x1b'`. -/
def ESC : Char := Char.ofNat 0x1b

/-- The test `('a' <= c && c <= 'z') || ('A' <= c && c <= 'Z')`. -/
def isLetter (c : Char) : Bool :=
  (decide ('a' ≤ c) && decide (c ≤ 'z')) || (decide ('A' ≤ c) && decide (c ≤ 'Z'))

/-- Go `strings.Split(s, sep)` for a one-rune separator: the pieces between
the separators, always at least one piece. -/
def splitSep (sep : Char) : List Char → List (List Char)
  | [] => [[]]
  | c :: cs =>
    if c = sep then [] :: splitSep sep cs
    else
      match splitSep sep cs with
      | [] => [[c]]
      | p :: ps => (c :: p) :: ps

/-- The digit loop of Go `strconv.ParseUint` in base 10 for 64 bits, with
`acc` the value read so far: `none` when the rune at hand is not a digit
(syntax error); at the digit that takes the value past `2^64 - 1` the loop
stops with `2^64 - 1` (range error) and reads no further. -/
def digitsVal : List Char → Nat → Option Nat
  | [], acc => some acc
  | c :: cs, acc =>
    if '0' ≤ c ∧ c ≤ '9' then
      if acc * 10 + (c.toNat - '0'.toNat) ≥ 2 ^ 64 then some (2 ^ 64 - 1)
      else digitsVal cs (acc * 10 + (c.toNat - '0'.toNat))
    else none

/-- Go `strconv.Atoi` with the error dropped (`n, _ := strconv.Atoi(tok)`),
for a 64-bit `int`: an optional sign and decimal digits; a syntax error
gives 0 and a value out of range gives the nearest `int`. -/
def atoi (tok : List Char) : Int :=
  let neg := tok.head? = some '-'
  let body := if tok.head? = some '-' ∨ tok.head? = some '+' then tok.tail else tok
  if body = [] then 0
  else
    match digitsVal body 0 with
    | none => 0
    | some v =>
      if neg then (if v > 2 ^ 63 then - (2 ^ 63 : Int) else - (v : Int))
      else (if v ≥ 2 ^ 63 then (2 ^ 63 : Int) - 1 else (v : Int))

/-- The test `n == 0 || n == 39 || (30 <= n && n <= 37)`. -/
def allowedCode (n : Int) : Bool :=
  decide (n = 0) || decide (n = 39) || (decide (30 ≤ n) && decide (n ≤ 37))

/-- The loop over `strings.Split(string(r[i+2:j]), ";")` that builds `s`:
every token with an allowed code is appended, separated by `';'`, a token
of code 0 as `"39"`. -/
def sgrParams : List (List Char) → List Char → List Char
  | [], s => s
  | tok :: toks, s =>
    let n := atoi tok
    if allowedCode n then
      let s1 := if s ≠ [] then s ++ [';'] else s
      let tok1 := if n = 0 then ['3', '9'] else tok
      sgrParams toks (s1 ++ tok1)
    else sgrParams toks s

/-- The replacement sequence `"\x1b[" + s + "m"` for the parameter runes
`r[i+2:j]` of a sequence that ends in `'m'`. -/
def sgrEmit (params : List Char) : List Char :=
  ESC :: '[' :: (sgrParams (splitSep ';' params) [] ++ ['m'])

/-- What `truncateAnsi` appends to `out`: a rewritten escape sequence, or
one rune of the line. -/
inductive Piece where
  | esc (s : List Char)
  | rune (c : Char)
deriving DecidableEq, Repr

/-- The main loop of `truncateAnsi` on the runes `r[i:]` still to be read,
with the current `width`; the result lists what is appended to `out` from
here on.  `fuel` bounds the number of iterations; `len(r[i:])` is enough. -/
def truncLoop (RuneWidth : Char → Nat) (w : Int) : Nat → List Char → Int → List Piece
  | 0, _, _ => []
  | _ + 1, [], _ => []
  | fuel + 1, c :: rest, width =>
    if c = ESC ∧ rest.head? = some '[' then
      let body := rest.tail
      let params := body.takeWhile (fun x => !isLetter x)
      match body.dropWhile (fun x => !isLetter x) with
      | [] => []
      | t :: after =>
        if t = 'm' then Piece.esc (sgrEmit params) :: truncLoop RuneWidth w fuel after width
        else truncLoop RuneWidth w fuel after width
    else
      let cw : Int := (RuneWidth c : Int)
      if width + cw > w then []
      else Piece.rune c :: truncLoop RuneWidth w fuel rest (width + cw)

/-- The runes of a piece. -/
def Piece.runes : Piece → List Char
  | .esc s => s
  | .rune c => [c]

/-- The pieces `truncateAnsi` appends to `out` for the runes `r`. -/
def truncPieces (RuneWidth : Char → Nat) (r : List Char) (w : Int) : List Piece :=
  truncLoop RuneWidth w r.length r 0

/-- The runes of `out` when `truncateAnsi` returns. -/
def truncRunes (RuneWidth : Char → Nat) (r : List Char) (w : Int) : List Char :=
  ((truncPieces RuneWidth r w).map Piece.runes).flatten

/-- The function `truncateAnsi(line, w, _)` for a line of valid text: on
the runes of such a line `[]rune(line)` and `string(out)` change nothing
(`truncateAnsiBytes` is the function on raw bytes). -/
def truncateAnsi (RuneWidth : Char → Nat) (line : String) (w : Int) (_tail : String) : String :=
  String.mk (truncRunes RuneWidth line.data w)

/-- Sum of the column widths of the runes of the line that were appended
one by one, the escape sequences left out. -/
def plainWidth (RuneWidth : Char → Nat) : List Piece → Nat
  | [] => 0
  | .esc _ :: ps => plainWidth RuneWidth ps
  | .rune c :: ps => RuneWidth c + plainWidth RuneWidth ps

/-! ## Input -/

/-- Go `unicode.IsSpace`. -/
def isSpace (c : Char) : Bool :=
  let n := c.toNat
  n = 0x09 || n = 0x0A || n = 0x0B || n = 0x0C || n = 0x0D || n = 0x20 || n = 0x85 || n = 0xA0
    || n = 0x1680 || (decide (0x2000 ≤ n) && decide (n ≤ 0x200A)) || n = 0x2028 || n = 0x2029
    || n = 0x202F || n = 0x205F || n = 0x3000

/-- Go `strings.TrimSpace`. -/
def trimSpace (s : List Char) : List Char :=
  ((s.dropWhile isSpace).reverse.dropWhile isSpace).reverse

/-- The expression
`strings.Split(strings.Replace(strings.TrimSpace(string(b)), "\r", "", -1), "\n")`. -/
def splitLines (b : String) : List String :=
  (splitSep '\n' ((trimSpace b.data).filter (fun c => c ≠ '\r'))).map String.mk

/-- The expression `strings.Replace(line, "\t", "    ", -1)`. -/
def expandTabs (line : String) : String :=
  String.mk (line.data.flatMap (fun c => if c = '\t' then [' ', ' ', ' ', ' '] else [c]))

/-! ## Options -/

/-- The type `AnsiColor` as a list of its entries. -/
abbrev AnsiColor := List (String × String)

/-- The table `fgcolor`. -/
def fgcolor : AnsiColor :=
  [("gray", "30"), ("black", "30"), ("red", "31"), ("green", "32"), ("yellow", "33"),
   ("blue", "34"), ("magenta", "35"), ("cyan", "36"), ("white", "37")]

/-- The table `bgcolor`. -/
def bgcolor : AnsiColor :=
  [("black", "40"), ("gray", "40"), ("red", "41"), ("green", "42"), ("yellow", "43"),
   ("blue", "44"), ("magenta", "45"), ("cyan", "46"), ("white", "47")]

/-- The method `AnsiColor.Get`; a missing key of a Go map reads as `""`. -/
def AnsiColor.Get (a : AnsiColor) (name fallback : String) : String :=
  match a.lookup name with
  | some c => c
  | none => (a.lookup fallback).getD ""

/-- The flags `-cl`, `-lf`, `-lb`, `-cc`, and whether `runtime.GOOS` is
`"windows"`. -/
structure Options where
  cursorline : Bool := false
  linefg : String := "black"
  linebg : String := "white"
  color : Bool := false
  windows : Bool := false
deriving DecidableEq, Repr

/-- The variable `fillstart`. -/
def fillstart (o : Options) : String := if o.cursorline then "" else "\x1b[0K"

/-- The variable `fillend`. -/
def fillend (o : Options) : String := if o.cursorline then "\x1b[0K\x1b[0m" else "\x1b[0m"

/-- The variable `clearend`. -/
def clearend : String := "\x1b[0K"

/-- The variable `fg`. -/
def fg (o : Options) : String := fgcolor.Get o.linefg "black"

/-- The variable `bg`. -/
def bg (o : Options) : String := bgcolor.Get o.linebg "white"

/-- The variable `truncate` after `if *color { truncate = truncateAnsi }`;
`plain` stands for `runewidth.Truncate`. -/
def truncate (o : Options) (RuneWidth : Char → Nat) (plain : String → Int → String → String) :
    String → Int → String → String :=
  if o.color then truncateAnsi RuneWidth else plain

/-! ## Rendering -/

/-- The slice expression `lines[off:]`; `none` is the bounds panic. -/
def sliceFrom {α : Type} (xs : List α) (off : Int) : Option (List α) :=
  if 0 ≤ off ∧ off ≤ xs.length then some (xs.drop off.toNat) else none

/-- The argument of the `out.Write` that paints a line: highlighted when
`idx == row`. -/
def paintText (o : Options) (row idx : Int) (line : String) : String :=
  if idx = row then "\x1b[" ++ fg o ++ ";" ++ bg o ++ "m" ++ line ++ fillend o ++ "\r"
  else line ++ clearend ++ "\r"

/-- The loop `for i, line := range lines[off:]` from iteration `i` on, with
the counter `n` and the flags `dirty` at that point.  The result is the
list of byte strings given to `out.Write`, the final `n` and the final
flags; `none` is an index panic. -/
def renderLoop (o : Options) (trunc : String → Int → String → String) (w h row off : Int) :
    List String → Int → Int → List Bool → Option (List String × Int × List Bool)
  | [], _, n, dirty => some ([], n, dirty)
  | line :: rest, i, n, dirty =>
    let text := trunc (expandTabs line) w ""
    match getIdx dirty (off + i) with
    | none => none
    | some flag =>
      let painted : Option (List String × List Bool) :=
        if flag then
          (setIdx dirty (off + i) false).map
            (fun d => ([fillstart o, paintText o row (off + i) text], d))
        else some ([], dirty)
      match painted with
      | none => none
      | some (ws, dirty1) =>
        let n1 := n + 1
        if n1 ≥ h then
          some (ws ++ (if o.windows then ["\n"] else []), n1, dirty1)
        else
          match renderLoop o trunc w h row off rest (i + 1) n1 dirty1 with
          | none => none
          | some (more, n2, dirty2) => some (ws ++ "\n" :: more, n2, dirty2)

/-- The final write `fmt.Sprintf("\x1b[%dA", n)`. -/
def cursorUp (n : Int) : String := "\x1b[" ++ toString n ++ "A"

/-- One render pass: `n := 0`, the loop over `lines[off:]`, the cursor-up
write.  The result is the list of writes, the final `n` and the flags. -/
def renderPass (o : Options) (trunc : String → Int → String → String) (lines : List String)
    (w h : Int) (st : Nav) : Option (List String × Int × List Bool) :=
  match sliceFrom lines st.off with
  | none => none
  | some visible =>
    match renderLoop o trunc w h st.row st.off visible 0 0 st.dirty with
    | none => none
    | some (ws, n, dirty1) => some (ws ++ [cursorUp n], n, dirty1)

/-! ## Session -/

/-- What the terminal delivers to one pass of the loop: the answer of
`tty.Size()` (`none` is an error) and the rune of `tty.ReadRune()`. -/
structure Event where
  size : Option (Int × Int)
  key : Char
deriving DecidableEq, Repr

/-- The pair `w, h` of a pass: `80, 25` when `tty.Size()` fails. -/
def geometry : Option (Int × Int) → Int × Int
  | some p => p
  | none => (80, 25)

/-- How the loop stands after the events: still reading keys, or left by
`return` with the variable `result`, or by a panic. -/
inductive Outcome where
  | reading (st : Nav)
  | returned (result : String)
  | panicked
deriving DecidableEq, Repr

/-- One pass of the loop: the size query, the render pass, the key read
and the `switch r`. -/
def pass (o : Options) (trunc : String → Int → String → String) (lines : List String)
    (ev : Event) (st : Nav) : Step :=
  let h := (geometry ev.size).2
  match renderPass o trunc lines (geometry ev.size).1 h st with
  | none => .fault
  | some (_, _, dirty1) => keyStep lines h { st with dirty := dirty1 } ev.key

/-- The `for` loop of `main` over the events the terminal delivers. -/
def session (o : Options) (trunc : String → Int → String → String) (lines : List String) :
    List Event → Nav → Outcome
  | [], st => .reading st
  | ev :: evs, st =>
    match pass o trunc lines ev st with
    | .next st1 => session o trunc lines evs st1
    | .confirm line => .returned line
    | .cancel => .returned ""
    | .fault => .panicked

/-- How a run of the program stands: `exited` carries what was written to
standard output and to standard error, the exit status, and whether
`tty.Open` had been called. -/
inductive Run where
  | reading (st : Nav)
  | exited (stdout stderr : String) (status : Int) (ttyOpened : Bool)
  | crashed
deriving DecidableEq, Repr

/-- The deferred function of `main` after the terminal is restored:
a panic is raised again, a non-empty `result` is printed, and otherwise
`os.Exit(1)`. -/
def finish : Outcome → Run
  | .reading st => .reading st
  | .panicked => .crashed
  | .returned result =>
    if result ≠ "" then .exited (result ++ "\n") "" 0 true else .exited "" "" 1 true

/-- What the environment supplies to `main`: the answer of
`ioutil.ReadAll(os.Stdin)`, the error of `tty.Open()` if any, and the
events of the terminal. -/
structure World where
  stdin : Except String String
  ttyError : Option String := none
  events : List Event := []

/-- The function `main`. -/
def main (o : Options) (RuneWidth : Char → Nat) (plain : String → Int → String → String)
    (world : World) : Run :=
  match world.stdin with
  | .error err => .exited "" (err ++ "\n") 1 false
  | .ok b =>
    if b.data.length = 0 then .exited "" "no buffer to work with was available\n" 1 false
    else
      let lines := splitLines b
      match world.ttyError with
      | some err => .exited "" (err ++ "\n") 1 true
      | none => finish (session o (truncate o RuneWidth plain) lines world.events (initNav lines))

/-! ## Predicates used by the statements -/

/-- The state is within the line set: one flag per line and
`0 ≤ off ≤ row < n`. -/
def NavOK (n : Nat) (st : Nav) : Prop :=
  st.dirty.length = n ∧ 0 ≤ st.off ∧ st.off ≤ st.row ∧ st.row < n

/-- The runes of the move-down keys: Tab, `j`, Ctrl-N. -/
def isDownKey (r : Char) : Prop := r = '\t' ∨ r = 'j' ∨ r = Char.ofNat 0x0E

/-- The runes of the move-up keys: `k`, Ctrl-P. -/
def isUpKey (r : Char) : Prop := r = 'k' ∨ r = Char.ofNat 0x10

instance (r : Char) : Decidable (isDownKey r) := by unfold isDownKey; infer_instance

instance (r : Char) : Decidable (isUpKey r) := by unfold isUpKey; infer_instance

/-- The events of a terminal of fixed size `w × h` that delivers `keys`. -/
def fixedSize (w h : Int) (keys : List Char) : List Event :=
  keys.map (fun k => { size := some (w, h), key := k })

/-- The tokens the loop over the parameters keeps, in order: those with an
allowed code, a token of code 0 as `"39"`. -/
def keptTokens (toks : List (List Char)) : List (List Char) :=
  toks.filterMap (fun tok =>
    if allowedCode (atoi tok) then some (if atoi tok = 0 then ['3', '9'] else tok) else none)

/-- The tokens written one after the other, each after a `';'`. -/
def tailJoin (ks : List (List Char)) : List Char :=
  (ks.map (fun k => ';' :: k)).flatten

/-- A line whose escape sequences are all allowed ones: it is made of runes
that do not start an escape sequence `ESC [` and of graphic-rendition
sequences `ESC [ params m` whose parameters, the tokens of `params` between
the `';'`, all have an allowed code. -/
inductive AllowedLine : List Char → Prop where
  | nil : AllowedLine []
  | rune (c : Char) (rest : List Char) :
      ¬ (c = ESC ∧ rest.head? = some '[') → AllowedLine rest → AllowedLine (c :: rest)
  | sgr (params rest : List Char) :
      (∀ c ∈ params, isLetter c = false) →
      (∀ tok ∈ splitSep ';' params, allowedCode (atoi tok) = true) →
      AllowedLine rest → AllowedLine (ESC :: '[' :: (params ++ 'm' :: rest))

/-- The runes `truncateAnsi` appends to `out` from the runes `r` on, when
the loop stands there with `width`. -/
def truncFrom (RuneWidth : Char → Nat) (w : Int) (r : List Char) (width : Int) : List Char :=
  ((truncLoop RuneWidth w r.length r width).map Piece.runes).flatten

/-- The heights `h` the passes of the loop get for the events. -/
def heights (evs : List Event) : List Int :=
  evs.map (fun ev => (geometry ev.size).2)

/-- The cursor is inside a window of height `h` that does not reach past
the end of `n` lines: `row ≤ off + h - 1` and `off ≤ max(0, n - h)`. -/
def InWindow (n : Nat) (h : Int) (st : Nav) : Prop :=
  st.row ≤ st.off + h - 1 ∧ st.off ≤ max 0 ((n : Int) - h)

/-- Display width of a run of runes: the sum of their column widths. -/
def displayWidth (RuneWidth : Char → Nat) (l : List Char) : Nat :=
  (l.map RuneWidth).sum

/-- Go `strings.Join(parts, sep)` for a one-rune separator. -/
def joinSep (sep : Char) : List (List Char) → List Char
  | [] => []
  | [k] => k
  | k :: k2 :: ks => k ++ sep :: joinSep sep (k2 :: ks)

/-! ## Lines as bytes -/

/-- The rune `utf8.RuneError`, U+FFFD. -/
def RuneError : Char := Char.ofNat 0xFFFD

/-- A UTF-8 continuation byte, `0x80 ≤ b ≤ 0xBF`. -/
def isCont (b : Nat) : Bool := decide (0x80 ≤ b) && decide (b ≤ 0xBF)

/-- Go `utf8.DecodeRuneInString` for the string with the bytes `s` (numbers
below 256): the first rune and the number of bytes it takes.  A byte that
does not start a well-formed sequence, or whose sequence is cut short or
has a byte out of range, gives `RuneError` and the width 1. -/
def decodeRune : List Nat → Char × Nat
  | [] => (RuneError, 0)
  | b0 :: rest =>
    if b0 < 0x80 then (Char.ofNat b0, 1)
    else if 0xC2 ≤ b0 ∧ b0 ≤ 0xDF then
      match rest with
      | b1 :: _ =>
        if isCont b1 then (Char.ofNat ((b0 - 0xC0) * 64 + (b1 - 0x80)), 2)
        else (RuneError, 1)
      | [] => (RuneError, 1)
    else if 0xE0 ≤ b0 ∧ b0 ≤ 0xEF then
      match rest with
      | b1 :: b2 :: _ =>
        if (if b0 = 0xE0 then 0xA0 else 0x80) ≤ b1 ∧ b1 ≤ (if b0 = 0xED then 0x9F else 0xBF)
            ∧ isCont b2 = true then
          (Char.ofNat ((b0 - 0xE0) * 4096 + (b1 - 0x80) * 64 + (b2 - 0x80)), 3)
        else (RuneError, 1)
      | _ => (RuneError, 1)
    else if 0xF0 ≤ b0 ∧ b0 ≤ 0xF4 then
      match rest with
      | b1 :: b2 :: b3 :: _ =>
        if (if b0 = 0xF0 then 0x90 else 0x80) ≤ b1 ∧ b1 ≤ (if b0 = 0xF4 then 0x8F else 0xBF)
            ∧ isCont b2 = true ∧ isCont b3 = true then
          (Char.ofNat
            ((b0 - 0xF0) * 262144 + (b1 - 0x80) * 4096 + (b2 - 0x80) * 64 + (b3 - 0x80)), 4)
        else (RuneError, 1)
      | _ => (RuneError, 1)
    else (RuneError, 1)

/-- The runes of the bytes `s` when the first `skip` bytes belong to the
rune read before: at each other byte `decodeRune` reads a rune, and the
bytes it took are passed over. -/
def decodeFrom : List Nat → Nat → List Char
  | [], _ => []
  | _ :: rest, skip + 1 => decodeFrom rest skip
  | b :: rest, 0 => (decodeRune (b :: rest)).1 :: decodeFrom rest ((decodeRune (b :: rest)).2 - 1)

/-- Go `[]rune(s)` for the string with the bytes `s`. -/
def decodeRunes (s : List Nat) : List Char :=
  decodeFrom s 0

/-- Go `utf8.EncodeRune`: the bytes of a rune. -/
def encodeRune (c : Char) : List Nat :=
  let n := c.toNat
  if n ≤ 0x7F then [n]
  else if n ≤ 0x7FF then [0xC0 + n / 64, 0x80 + n % 64]
  else if n ≤ 0xFFFF then [0xE0 + n / 4096, 0x80 + n / 64 % 64, 0x80 + n % 64]
  else [0xF0 + n / 262144, 0x80 + n / 4096 % 64, 0x80 + n / 64 % 64, 0x80 + n % 64]

/-- Go `string(out)` for a slice of runes: the bytes of the runes. -/
def encodeRunes (cs : List Char) : List Nat :=
  cs.flatMap encodeRune

/-- The function `truncateAnsi(line, w, _)` on the bytes of the line:
`r := []rune(line)`, the loop, `return string(out)`. -/
def truncateAnsiBytes (RuneWidth : Char → Nat) (line : List Nat) (w : Int) (_tail : List Nat) :
    List Nat :=
  encodeRunes (truncRunes RuneWidth (decodeRunes line) w)

/-! ## Inputs of the examples -/

/-- A rune-width function for the examples: 0 for a control rune, 2 from
U+1100 on, 1 otherwise. -/
def exampleWidth (c : Char) : Nat :=
  if c.toNat < 32 then 0 else if c.toNat ≥ 0x1100 then 2 else 1

/-- The options of the examples: the defaults with `-cc` set. -/
def exampleOptions : Options := { color := true }

/-- The event of a terminal of 80 columns and 25 rows that delivers `r`. -/
def exampleKey (r : Char) : Event := { size := some (80, 25), key := r }

/-! # Theorems -/

/-! ## Index lemmas -/

theorem setIdx_eq_some {α : Type} (xs : List α) (i : Int) (v : α)
    (h0 : 0 ≤ i) (h1 : i < xs.length) : setIdx xs i v = some (xs.set i.toNat v) := by
  simp [setIdx, h0, h1]

theorem getIdx_eq_some {α : Type} (xs : List α) (i : Int)
    (h0 : 0 ≤ i) (h1 : i < xs.length) : ∃ a, getIdx xs i = some a := by
  have h2 : i.toNat < xs.length := by omega
  refine ⟨xs.get ⟨i.toNat, h2⟩, ?_⟩
  simp [getIdx, h0, List.getElem?_eq_getElem h2]

theorem length_markAll (d : List Bool) : (markAll d).length = d.length := by
  simp [markAll]

theorem navOK_init (lines : List String) (hN : 1 ≤ lines.length) :
    NavOK lines.length (initNav lines) := by
  simp [NavOK, initNav]; omega

theorem moveDown_eq (n : Nat) (h : Int) (st : Nav) (hlen : st.dirty.length = n)
    (h0 : 0 ≤ st.row) (h1 : st.row < (n : Int) - 1) :
    moveDown n h st = some
      (if st.row + 1 - st.off ≥ h then
        { off := st.off + 1, row := st.row + 1,
          dirty := markAll ((st.dirty.set st.row.toNat true).set (st.row + 1).toNat true) }
       else
        { off := st.off, row := st.row + 1,
          dirty := (st.dirty.set st.row.toNat true).set (st.row + 1).toNat true }) := by
  unfold moveDown
  rw [if_pos h1, setIdx_eq_some _ _ _ h0 (by omega)]
  simp only []
  rw [setIdx_eq_some _ _ _ (by omega) (by simp; omega)]
  simp only []
  split <;> rfl

theorem moveUp_eq (n : Nat) (st : Nav) (hlen : st.dirty.length = n)
    (h0 : 0 < st.row) (h1 : st.row < (n : Int)) :
    moveUp st = some
      (if st.row - 1 < st.off then
        { off := st.off - 1, row := st.row - 1,
          dirty := markAll ((st.dirty.set st.row.toNat true).set (st.row - 1).toNat true) }
       else
        { off := st.off, row := st.row - 1,
          dirty := (st.dirty.set st.row.toNat true).set (st.row - 1).toNat true }) := by
  unfold moveUp
  rw [if_pos (by omega), setIdx_eq_some _ _ _ (by omega) (by omega)]
  simp only []
  rw [setIdx_eq_some _ _ _ (by omega) (by simp; omega)]
  simp only []
  split <;> rfl

theorem moveDown_ok (n : Nat) (h : Int) (st : Nav) (hst : NavOK n st) :
    ∃ st1, moveDown n h st = some st1 ∧ NavOK n st1 ∧
      (1 ≤ h → st.row ≤ st.off + h - 1 → st1.row ≤ st1.off + h - 1) := by
  obtain ⟨hlen, h0, h1, h2⟩ := hst
  by_cases hr : st.row < (n : Int) - 1
  · rw [moveDown_eq n h st hlen (by omega) hr]
    by_cases hc : st.row + 1 - st.off ≥ h
    · rw [if_pos hc]
      refine ⟨_, rfl, ⟨?_, ?_, ?_, ?_⟩, ?_⟩ <;> simp [length_markAll, hlen] <;> omega
    · rw [if_neg hc]
      refine ⟨_, rfl, ⟨?_, ?_, ?_, ?_⟩, ?_⟩ <;> simp [hlen] <;> omega
  · refine ⟨st, ?_, ⟨hlen, h0, h1, h2⟩, fun _ hb => hb⟩
    simp [moveDown, hr]

theorem moveUp_ok (n : Nat) (h : Int) (st : Nav) (hst : NavOK n st) :
    ∃ st1, moveUp st = some st1 ∧ NavOK n st1 ∧
      (1 ≤ h → st.row ≤ st.off + h - 1 → st1.row ≤ st1.off + h - 1) := by
  obtain ⟨hlen, h0, h1, h2⟩ := hst
  by_cases hr : 0 < st.row
  · rw [moveUp_eq n st hlen hr h2]
    by_cases hc : st.row - 1 < st.off
    · rw [if_pos hc]
      refine ⟨_, rfl, ⟨?_, ?_, ?_, ?_⟩, ?_⟩ <;> simp [length_markAll, hlen] <;> omega
    · rw [if_neg hc]
      refine ⟨_, rfl, ⟨?_, ?_, ?_, ?_⟩, ?_⟩ <;> simp [hlen] <;> omega
  · refine ⟨st, ?_, ⟨hlen, h0, h1, h2⟩, fun _ hb => hb⟩
    have : ¬ st.row > 0 := by omega
    simp [moveUp, this]

/-! ## The render loop never faults inside the line set -/

theorem renderLoop_ok (o : Options) (trunc : String → Int → String → String)
    (w h row off : Int) :
    ∀ (ls : List String) (i n : Int) (dirty : List Bool),
      0 ≤ off + i → off + i + ls.length ≤ dirty.length →
      ∃ ws n1 d1, renderLoop o trunc w h row off ls i n dirty = some (ws, n1, d1) ∧
        d1.length = dirty.length := by
  intro ls
  induction ls with
  | nil => intro i n dirty _ _; exact ⟨[], n, dirty, rfl, rfl⟩
  | cons line rest ih =>
    intro i n dirty h0 h1
    have hlt : off + i < dirty.length := by
      simp only [List.length_cons, Nat.cast_add, Nat.cast_one] at h1; omega
    obtain ⟨flag, hflag⟩ := getIdx_eq_some dirty (off + i) h0 hlt
    unfold renderLoop
    simp only [hflag]
    cases flag with
    | false =>
      simp only [Bool.false_eq_true, if_false]
      by_cases hn : n + 1 ≥ h
      · simp only [hn, if_true]; exact ⟨_, _, _, rfl, rfl⟩
      · simp only [hn, if_false]
        obtain ⟨ws, n1, d1, hr, hl⟩ := ih (i + 1) (n + 1) dirty (by omega)
          (by simp only [List.length_cons, Nat.cast_add, Nat.cast_one] at h1; omega)
        rw [hr]; exact ⟨_, _, _, rfl, hl⟩
    | true =>
      simp only [if_true, setIdx_eq_some _ _ _ h0 hlt, Option.map_some']
      by_cases hn : n + 1 ≥ h
      · simp only [hn, if_true]; exact ⟨_, _, _, rfl, by simp⟩
      · simp only [hn, if_false]
        obtain ⟨ws, n1, d1, hr, hl⟩ := ih (i + 1) (n + 1) (dirty.set (off + i).toNat false)
          (by omega)
          (by simp only [List.length_cons, Nat.cast_add, Nat.cast_one] at h1
              simp only [List.length_set]; omega)
        rw [hr]; exact ⟨_, _, _, rfl, by simpa using hl⟩

theorem renderPass_ok (o : Options) (trunc : String → Int → String → String)
    (lines : List String) (w h : Int) (st : Nav) (hst : NavOK lines.length st) :
    ∃ ws n d1, renderPass o trunc lines w h st = some (ws, n, d1) ∧
      d1.length = lines.length := by
  obtain ⟨hlen, h0, h1, h2⟩ := hst
  have hs : sliceFrom lines st.off = some (lines.drop st.off.toNat) := by
    simp [sliceFrom, h0]; omega
  obtain ⟨ws, n1, d1, hr, hl⟩ := renderLoop_ok o trunc w h st.row st.off
    (lines.drop st.off.toNat) 0 0 st.dirty (by omega)
    (by simp only [List.length_drop, hlen]; omega)
  refine ⟨ws ++ [cursorUp n1], n1, d1, ?_, by omega⟩
  simp [renderPass, hs, hr]

theorem keyStep_down (lines : List String) (h : Int) (st : Nav) (r : Char) (hr : isDownKey r) :
    keyStep lines h st r =
      match moveDown lines.length h st with
      | some st1 => .next st1
      | none => .fault := by
  have hr1 : r = '\t' ∨ r = 'j' ∨ r = Char.ofNat 0x0E := hr
  unfold keyStep; rw [if_pos hr1]

theorem keyStep_up (lines : List String) (h : Int) (st : Nav) (r : Char) (hr : isUpKey r) :
    keyStep lines h st r =
      match moveUp st with
      | some st1 => .next st1
      | none => .fault := by
  have hnd : ¬ (r = '\t' ∨ r = 'j' ∨ r = Char.ofNat 0x0E) := by
    rcases hr with rfl | rfl <;> decide
  have hr1 : r = 'k' ∨ r = Char.ofNat 0x10 := hr
  unfold keyStep; rw [if_neg hnd, if_pos hr1]

/-- A pass that reads a move key continues in a state inside the line set,
and keeps the cursor inside a window of height `h ≥ 1` when it was. -/
theorem pass_move (o : Options) (trunc : String → Int → String → String)
    (lines : List String) (ev : Event) (st : Nav) (hst : NavOK lines.length st)
    (hk : isDownKey ev.key ∨ isUpKey ev.key) :
    ∃ st1, pass o trunc lines ev st = .next st1 ∧ NavOK lines.length st1 ∧
      (1 ≤ (geometry ev.size).2 → st.row ≤ st.off + (geometry ev.size).2 - 1 →
        st1.row ≤ st1.off + (geometry ev.size).2 - 1) := by
  obtain ⟨ws, n, d1, hr, hl⟩ := renderPass_ok o trunc lines (geometry ev.size).1
    (geometry ev.size).2 st hst
  have hst1 : NavOK lines.length { st with dirty := d1 } := ⟨hl, hst.2.1, hst.2.2.1, hst.2.2.2⟩
  unfold pass
  simp only [hr]
  rcases hk with hk | hk
  · obtain ⟨st1, hm, hok, hb⟩ := moveDown_ok lines.length (geometry ev.size).2 _ hst1
    rw [keyStep_down _ _ _ _ hk, hm]
    exact ⟨st1, rfl, hok, hb⟩
  · obtain ⟨st1, hm, hok, hb⟩ := moveUp_ok lines.length (geometry ev.size).2 _ hst1
    rw [keyStep_up _ _ _ _ hk, hm]
    exact ⟨st1, rfl, hok, hb⟩

theorem session_moves_fixed (o : Options) (trunc : String → Int → String → String)
    (lines : List String) (w h : Int) (hh : 1 ≤ h) :
    ∀ (keys : List Char) (st : Nav), (∀ k ∈ keys, isDownKey k ∨ isUpKey k) →
      NavOK lines.length st → st.row ≤ st.off + h - 1 →
      ∃ st1, session o trunc lines (fixedSize w h keys) st = .reading st1 ∧
        NavOK lines.length st1 ∧ st1.row ≤ st1.off + h - 1 := by
  intro keys
  induction keys with
  | nil => intro st _ hst hb; exact ⟨st, rfl, hst, hb⟩
  | cons k ks ih =>
    intro st hk hst hb
    obtain ⟨st1, hp, hok, hb1⟩ := pass_move o trunc lines { size := some (w, h), key := k } st hst
      (hk k (List.mem_cons_self _ _))
    obtain ⟨st2, hs, hok2, hb2⟩ := ih st1 (fun k hk1 => hk k (List.mem_cons_of_mem _ hk1)) hok
      (hb1 hh hb)
    refine ⟨st2, ?_, hok2, hb2⟩
    simp only [fixedSize, List.map_cons, session, hp]
    exact hs

/-- C1. At fixed terminal height `h ≥ 1`, after any finite sequence of
move-down and move-up keys from the initial state the loop is still running
and `0 ≤ row ≤ N-1` and `off ≤ row ≤ off + h - 1`.  Every prefix of such a
sequence is such a sequence, so the bounds hold after every transition. -/
theorem C1_navigation_invariant (o : Options) (trunc : String → Int → String → String)
    (lines : List String) (w h : Int) (keys : List Char)
    (hN : 1 ≤ lines.length) (hh : 1 ≤ h) (hk : ∀ k ∈ keys, isDownKey k ∨ isUpKey k) :
    ∃ st, session o trunc lines (fixedSize w h keys) (initNav lines) = .reading st ∧
      0 ≤ st.row ∧ st.row ≤ (lines.length : Int) - 1 ∧
      st.off ≤ st.row ∧ st.row ≤ st.off + h - 1 := by
  obtain ⟨st, hs, ⟨_, h0, h1, h2⟩, hb⟩ := session_moves_fixed o trunc lines w h hh keys
    (initNav lines) hk (navOK_init lines hN) (by simp [initNav]; omega)
  exact ⟨st, hs, by omega, by omega, h1, hb⟩

theorem getIdx_set_self {α : Type} (xs : List α) (i : Int) (v : α)
    (h0 : 0 ≤ i) (h1 : i < xs.length) : getIdx (xs.set i.toNat v) i = some v := by
  have h2 : i.toNat < xs.length := by omega
  simp [getIdx, h0, List.getElem?_set, h2]

theorem getIdx_set_ne {α : Type} (xs : List α) (i j : Int) (v : α)
    (h0 : 0 ≤ i) (hne : j ≠ i) : getIdx (xs.set i.toNat v) j = getIdx xs j := by
  unfold getIdx
  by_cases hj : 0 ≤ j
  · have h2 : i.toNat ≠ j.toNat := by omega
    simp [hj, List.getElem?_set, h2]
  · simp [hj]

theorem getIdx_replicate {α : Type} (n : Nat) (v : α) (j : Int) (h0 : 0 ≤ j) (h1 : j < n) :
    getIdx (List.replicate n v) j = some v := by
  have h2 : j.toNat < n := by omega
  simp [getIdx, h0, List.getElem?_replicate, h2]

/-- C3. In a state with one flag per line, `0 ≤ off ≤ row ≤ off + h - 1`
and `row ≤ N - 1`: a move-down with `row < N-1` that stays inside the window
sets `dirty[row]` and `dirty[row+1]`, changes no other flag and keeps `off`;
one that crosses the lower edge increments `off` and leaves every flag set.
A move-up with `row > 0` that stays inside the window sets `dirty[row]` and
`dirty[row-1]`, changes no other flag and keeps `off`; one that crosses the
upper edge decrements `off` and leaves every flag set. -/
theorem C3_dirty_marking (n : Nat) (h : Int) (st : Nav)
    (hlen : st.dirty.length = n) (h0 : 0 ≤ st.off) (h1 : st.off ≤ st.row)
    (_h2 : st.row ≤ st.off + h - 1) (h3 : st.row ≤ (n : Int) - 1) :
    (st.row < (n : Int) - 1 → st.row + 1 - st.off < h →
      ∃ st1, moveDown n h st = some st1 ∧ st1.off = st.off ∧ st1.row = st.row + 1 ∧
        getIdx st1.dirty st.row = some true ∧ getIdx st1.dirty (st.row + 1) = some true ∧
        ∀ j, j ≠ st.row → j ≠ st.row + 1 → getIdx st1.dirty j = getIdx st.dirty j) ∧
    (st.row < (n : Int) - 1 → st.row + 1 - st.off ≥ h →
      ∃ st1, moveDown n h st = some st1 ∧ st1.off = st.off + 1 ∧ st1.row = st.row + 1 ∧
        st1.dirty.length = n ∧ ∀ j, 0 ≤ j → j < (n : Int) → getIdx st1.dirty j = some true) ∧
    (st.row > 0 → st.row - 1 ≥ st.off →
      ∃ st1, moveUp st = some st1 ∧ st1.off = st.off ∧ st1.row = st.row - 1 ∧
        getIdx st1.dirty st.row = some true ∧ getIdx st1.dirty (st.row - 1) = some true ∧
        ∀ j, j ≠ st.row → j ≠ st.row - 1 → getIdx st1.dirty j = getIdx st.dirty j) ∧
    (st.row > 0 → st.row - 1 < st.off →
      ∃ st1, moveUp st = some st1 ∧ st1.off = st.off - 1 ∧ st1.row = st.row - 1 ∧
        st1.dirty.length = n ∧ ∀ j, 0 ≤ j → j < (n : Int) → getIdx st1.dirty j = some true) := by
  have hr0 : 0 ≤ st.row := by omega
  refine ⟨?_, ?_, ?_, ?_⟩
  · intro hr hc
    rw [moveDown_eq n h st hlen hr0 hr, if_neg (by omega)]
    refine ⟨_, rfl, rfl, rfl, ?_, ?_, ?_⟩
    · show getIdx ((st.dirty.set st.row.toNat true).set (st.row + 1).toNat true) st.row = _
      rw [getIdx_set_ne _ _ _ _ (by omega) (by omega)]
      exact getIdx_set_self _ _ _ hr0 (by omega)
    · exact getIdx_set_self _ _ _ (by omega) (by simp only [List.length_set]; omega)
    · intro j hj1 hj2
      show getIdx ((st.dirty.set st.row.toNat true).set (st.row + 1).toNat true) j = _
      rw [getIdx_set_ne _ _ _ _ (by omega) hj2, getIdx_set_ne _ _ _ _ hr0 hj1]
  · intro hr hc
    rw [moveDown_eq n h st hlen hr0 hr, if_pos hc]
    refine ⟨_, rfl, rfl, rfl, by simp [markAll, hlen], ?_⟩
    intro j hj0 hj1
    exact getIdx_replicate _ _ _ hj0 (by simp only [List.length_set]; omega)
  · intro hr hc
    rw [moveUp_eq n st hlen hr (by omega), if_neg (by omega)]
    refine ⟨_, rfl, rfl, rfl, ?_, ?_, ?_⟩
    · show getIdx ((st.dirty.set st.row.toNat true).set (st.row - 1).toNat true) st.row = _
      rw [getIdx_set_ne _ _ _ _ (by omega) (by omega)]
      exact getIdx_set_self _ _ _ hr0 (by omega)
    · exact getIdx_set_self _ _ _ (by omega) (by simp only [List.length_set]; omega)
    · intro j hj1 hj2
      show getIdx ((st.dirty.set st.row.toNat true).set (st.row - 1).toNat true) j = _
      rw [getIdx_set_ne _ _ _ _ (by omega) hj2, getIdx_set_ne _ _ _ _ hr0 hj1]
  · intro hr hc
    rw [moveUp_eq n st hlen hr (by omega), if_pos hc]
    refine ⟨_, rfl, rfl, rfl, by simp [markAll, hlen], ?_⟩
    intro j hj0 hj1
    exact getIdx_replicate _ _ _ hj0 (by simp only [List.length_set]; omega)

/-! ## Sessions -/

theorem session_append (o : Options) (trunc : String → Int → String → String)
    (lines : List String) (evs2 : List Event) :
    ∀ (evs1 : List Event) (st st1 : Nav),
      session o trunc lines evs1 st = .reading st1 →
      session o trunc lines (evs1 ++ evs2) st = session o trunc lines evs2 st1 := by
  intro evs1
  induction evs1 with
  | nil =>
    intro st st1 h
    simp only [session, Outcome.reading.injEq] at h
    simp [h]
  | cons ev evs ih =>
    intro st st1 h
    simp only [session, List.cons_append] at h ⊢
    cases hp : pass o trunc lines ev st with
    | next st2 => rw [hp] at h; exact ih st2 st1 h
    | confirm line => rw [hp] at h; cases h
    | cancel => rw [hp] at h; cases h
    | fault => rw [hp] at h; cases h

theorem keyStep_next_ok (lines : List String) (h : Int) (st st1 : Nav) (r : Char)
    (hst : NavOK lines.length st) (hs : keyStep lines h st r = .next st1) :
    NavOK lines.length st1 := by
  unfold keyStep at hs
  split at hs
  · obtain ⟨st2, hm, hok, _⟩ := moveDown_ok lines.length h st hst
    rw [hm] at hs; cases hs; exact hok
  · split at hs
    · obtain ⟨st2, hm, hok, _⟩ := moveUp_ok lines.length h st hst
      rw [hm] at hs; cases hs; exact hok
    · split at hs
      · split at hs <;> cases hs
      · split at hs
        · cases hs
        · cases hs; exact hst

theorem pass_next_ok (o : Options) (trunc : String → Int → String → String)
    (lines : List String) (ev : Event) (st st1 : Nav)
    (hst : NavOK lines.length st) (hp : pass o trunc lines ev st = .next st1) :
    NavOK lines.length st1 := by
  obtain ⟨ws, n, d1, hr, hl⟩ := renderPass_ok o trunc lines (geometry ev.size).1
    (geometry ev.size).2 st hst
  unfold pass at hp
  simp only [hr] at hp
  exact keyStep_next_ok lines _ { st with dirty := d1 } st1 ev.key
    ⟨hl, hst.2.1, hst.2.2.1, hst.2.2.2⟩ hp

/-- Every state the loop reaches is inside the line set, whatever the keys
and the terminal sizes. -/
theorem session_reading_ok (o : Options) (trunc : String → Int → String → String)
    (lines : List String) :
    ∀ (evs : List Event) (st st1 : Nav), NavOK lines.length st →
      session o trunc lines evs st = .reading st1 → NavOK lines.length st1 := by
  intro evs
  induction evs with
  | nil =>
    intro st st1 hst h
    simp only [session, Outcome.reading.injEq] at h
    exact h ▸ hst
  | cons ev evs ih =>
    intro st st1 hst h
    simp only [session] at h
    cases hp : pass o trunc lines ev st with
    | next st2 => rw [hp] at h; exact ih st2 st1 (pass_next_ok o trunc lines ev st st2 hst hp) h
    | confirm line => rw [hp] at h; cases h
    | cancel => rw [hp] at h; cases h
    | fault => rw [hp] at h; cases h

/-- A pass that reads Enter leaves the loop with `lines[row]`. -/
theorem pass_enter (o : Options) (trunc : String → Int → String → String)
    (lines : List String) (size : Option (Int × Int)) (st : Nav)
    (hst : NavOK lines.length st) :
    ∃ line, getIdx lines st.row = some line ∧
      pass o trunc lines { size := size, key := Char.ofNat 13 } st = .confirm line := by
  obtain ⟨ws, n, d1, hr, hl⟩ := renderPass_ok o trunc lines (geometry size).1
    (geometry size).2 st hst
  obtain ⟨line, hline⟩ := getIdx_eq_some lines st.row (by have := hst.2.1; have := hst.2.2.1; omega)
    hst.2.2.2
  refine ⟨line, hline, ?_⟩
  unfold pass
  simp only [hr]
  unfold keyStep
  rw [if_neg (by decide), if_neg (by decide), if_pos rfl]
  simp only [hline]

/-- C6 (amended). In every state the loop can reach whose line `lines[row]`
is not empty, Enter ends the session with exactly `lines[row]` and a newline
on standard output and exit status 0. -/
theorem C6_confirm_nonempty (o : Options) (trunc : String → Int → String → String)
    (lines : List String) (evs : List Event) (st : Nav) (size : Option (Int × Int))
    (line : String) (hN : 1 ≤ lines.length)
    (hreach : session o trunc lines evs (initNav lines) = .reading st)
    (hline : getIdx lines st.row = some line) (hne : line ≠ "") :
    finish (session o trunc lines (evs ++ [{ size := size, key := Char.ofNat 13 }])
      (initNav lines)) = .exited (line ++ "\n") "" 0 true := by
  have hst := session_reading_ok o trunc lines evs _ st (navOK_init lines hN) hreach
  obtain ⟨line1, hl1, hp⟩ := pass_enter o trunc lines size st hst
  rw [hline] at hl1
  cases hl1
  rw [session_append o trunc lines _ evs _ st hreach]
  simp only [session, hp, finish, hne, ne_eq, not_false_eq_true, if_true]

theorem moveDown_row (n : Nat) (h : Int) (st : Nav) (hst : NavOK n st) :
    ∃ st1, moveDown n h st = some st1 ∧ NavOK n st1 ∧
      st1.row = min (st.row + 1) ((n : Int) - 1) := by
  obtain ⟨st1, hm, hok, _⟩ := moveDown_ok n h st hst
  refine ⟨st1, hm, hok, ?_⟩
  obtain ⟨hlen, h0, h1, h2⟩ := hst
  by_cases hr : st.row < (n : Int) - 1
  · rw [moveDown_eq n h st hlen (by omega) hr] at hm
    have : st1.row = st.row + 1 := by
      split at hm <;> (cases hm; rfl)
    omega
  · simp only [moveDown, hr, if_false, Option.some.injEq] at hm
    subst hm; omega

theorem session_downs (o : Options) (trunc : String → Int → String → String)
    (lines : List String) (w h : Int) :
    ∀ (keys : List Char) (st : Nav), (∀ k ∈ keys, isDownKey k) → NavOK lines.length st →
      ∃ st1, session o trunc lines (fixedSize w h keys) st = .reading st1 ∧
        NavOK lines.length st1 ∧
        st1.row = min (st.row + keys.length) ((lines.length : Int) - 1) := by
  intro keys
  induction keys with
  | nil =>
    intro st _ hst
    refine ⟨st, rfl, hst, ?_⟩
    have := hst.2.2.2
    simp only [List.length_nil, Nat.cast_zero, add_zero]; omega
  | cons k ks ih =>
    intro st hk hst
    obtain ⟨ws, n, d1, hr, hl⟩ := renderPass_ok o trunc lines w h st hst
    obtain ⟨st1, hm, hok, hrow⟩ := moveDown_row lines.length h { st with dirty := d1 }
      ⟨hl, hst.2.1, hst.2.2.1, hst.2.2.2⟩
    have hp : pass o trunc lines { size := some (w, h), key := k } st = .next st1 := by
      unfold pass
      simp only [geometry, hr]
      rw [keyStep_down _ _ _ _ (hk k (List.mem_cons_self _ _)), hm]
    obtain ⟨st2, hs, hok2, hrow2⟩ := ih st1 (fun k hk1 => hk k (List.mem_cons_of_mem _ hk1)) hok
    refine ⟨st2, ?_, hok2, ?_⟩
    · simp only [fixedSize, List.map_cons, session, hp]; exact hs
    · have := hst.2.2.2
      simp only [List.length_cons, Nat.cast_add, Nat.cast_one] at hrow hrow2 ⊢
      omega

/-- C7. From the initial state, `k` move-down keys followed by Enter leave
the loop with `result = lines[min(k, N-1)]`: the element of the line set
itself, whatever the truncation function, the width and the height. -/
theorem C7_selection_by_position (o : Options) (trunc : String → Int → String → String)
    (lines : List String) (w h : Int) (downs : List Char)
    (hN : 1 ≤ lines.length) (hk : ∀ k ∈ downs, isDownKey k) :
    ∃ line, getIdx lines (min (downs.length : Int) ((lines.length : Int) - 1)) = some line ∧
      session o trunc lines (fixedSize w h (downs ++ [Char.ofNat 13])) (initNav lines)
        = .returned line := by
  obtain ⟨st, hs, hok, hrow⟩ := session_downs o trunc lines w h downs (initNav lines) hk
    (navOK_init lines hN)
  obtain ⟨line, hline, hp⟩ := pass_enter o trunc lines (some (w, h)) st hok
  have hrow1 : st.row = min (downs.length : Int) ((lines.length : Int) - 1) := by
    rw [hrow]; simp [initNav]
  refine ⟨line, hrow1 ▸ hline, ?_⟩
  have : fixedSize w h (downs ++ [Char.ofNat 13]) =
      fixedSize w h downs ++ [{ size := some (w, h), key := Char.ofNat 13 }] := by
    simp [fixedSize]
  rw [this, session_append o trunc lines _ _ _ st hs]
  simp only [session, hp]

/-! ## The render pass -/

theorem fillstart_ne_newline (o : Options) : fillstart o ≠ "\n" := by
  unfold fillstart; split <;> decide

theorem paintText_ne_newline (o : Options) (row idx : Int) (text : String) :
    paintText o row idx text ≠ "\n" := by
  intro hc
  have hl := congrArg String.length hc
  unfold paintText clearend at hl
  split at hl
  · simp only [String.length_append] at hl
    have h1 : "\x1b[".length = 2 := by decide
    have h2 : "\n".length = 1 := by decide
    omega
  · simp only [String.length_append] at hl
    have h1 : "\x1b[0K".length = 4 := by decide
    have h2 : "\n".length = 1 := by decide
    omega

/-- The counter and the newlines of the loop from iteration `i` on, when it
is entered with `n < h`. -/
theorem renderLoop_count (o : Options) (trunc : String → Int → String → String)
    (w h row off : Int) :
    ∀ (ls : List String) (i n : Int) (dirty : List Bool) (ws : List String) (n1 : Int)
      (d1 : List Bool), n < h →
      renderLoop o trunc w h row off ls i n dirty = some (ws, n1, d1) →
      n1 = n + min (h - n) ls.length ∧
      (ws.count "\n" : Int) =
        if (ls.length : Int) < h - n ∨ o.windows = true then min (h - n) ls.length
        else min (h - n) ls.length - 1 := by
  intro ls
  induction ls with
  | nil =>
    intro i n dirty ws n1 d1 hn hr
    simp only [renderLoop, Option.some.injEq, Prod.mk.injEq] at hr
    obtain ⟨rfl, rfl, rfl⟩ := hr
    have : (0 : Int) < h - n := by omega
    simp [this]; omega
  | cons line rest ih =>
    intro i n dirty ws n1 d1 hn hr
    unfold renderLoop at hr
    simp only [] at hr
    split at hr
    · cases hr
    · rename_i flag hflag
      split at hr
      · cases hr
      · rename_i pw dirty1 hpaint
        have hpw : pw.count "\n" = 0 := by
          cases flag with
          | false =>
            simp only [Bool.false_eq_true, if_false, Option.some.injEq, Prod.mk.injEq] at hpaint
            rw [← hpaint.1]; rfl
          | true =>
            simp only [if_true] at hpaint
            cases hset : setIdx dirty (off + i) false with
            | none => rw [hset] at hpaint; cases hpaint
            | some d =>
              rw [hset] at hpaint
              simp only [Option.map_some', Option.some.injEq, Prod.mk.injEq] at hpaint
              rw [← hpaint.1]
              simp only [List.count_cons, List.count_nil, beq_iff_eq]
              simp [fillstart_ne_newline, paintText_ne_newline]
        simp only [List.length_cons, Nat.cast_add, Nat.cast_one]
        split at hr
        · rename_i hstop
          simp only [Option.some.injEq, Prod.mk.injEq] at hr
          obtain ⟨rfl, rfl, rfl⟩ := hr
          have hmin : min (h - n) ((rest.length : Int) + 1) = 1 := by omega
          rw [hmin]
          refine ⟨rfl, ?_⟩
          have hnl : ¬ ((rest.length : Int) + 1 < h - n) := by omega
          cases hw : o.windows <;> simp [List.count_append, hpw, hnl]
        · rename_i hgo
          split at hr
          · cases hr
          · rename_i more n2 dirty2 hrec
            simp only [Option.some.injEq, Prod.mk.injEq] at hr
            obtain ⟨rfl, rfl, rfl⟩ := hr
            obtain ⟨hn2, hc2⟩ := ih (i + 1) (n + 1) dirty1 more n2 dirty2 (by omega) hrec
            refine ⟨by omega, ?_⟩
            have hcnt : ((pw ++ "\n" :: more).count "\n" : Int) = (more.count "\n" : Int) + 1 := by
              simp [List.count_append, hpw]
            rw [hcnt, hc2]
            by_cases hw : o.windows = true
            · simp only [hw, or_true, if_true]; omega
            · simp only [hw, Bool.false_eq_true, or_false]
              by_cases hlt : (rest.length : Int) < h - (n + 1)
              · rw [if_pos hlt, if_pos (by omega)]; omega
              · rw [if_neg hlt, if_neg (by omega)]; omega

/-- C5 (amended). In a render pass with `h ≥ 1` the number `n` of the final
cursor-up write is the number of lines visited, `min(h, N - off)`.  The
number of newline writes before it equals `n` when the line set ends before
the height limit (`N - off < h`) or on Windows, and is `n - 1` when the pass
stops at the height limit on another platform. -/
theorem C5_cursor_up_count (o : Options) (trunc : String → Int → String → String)
    (lines : List String) (w h : Int) (st : Nav)
    (hlen : st.dirty.length = lines.length) (h0 : 0 ≤ st.off)
    (h1 : st.off ≤ (lines.length : Int)) (hh : 1 ≤ h) :
    ∃ body d1,
      renderPass o trunc lines w h st =
        some (body ++ [cursorUp (min h ((lines.length : Int) - st.off))],
          min h ((lines.length : Int) - st.off), d1) ∧
      (body.count "\n" : Int) =
        if (lines.length : Int) - st.off < h ∨ o.windows = true
        then min h ((lines.length : Int) - st.off)
        else min h ((lines.length : Int) - st.off) - 1 := by
  have hs : sliceFrom lines st.off = some (lines.drop st.off.toNat) := by
    simp [sliceFrom, h0, h1]
  obtain ⟨ws, n1, d1, hr, _⟩ := renderLoop_ok o trunc w h st.row st.off
    (lines.drop st.off.toNat) 0 0 st.dirty (by omega)
    (by simp only [List.length_drop, hlen]; omega)
  obtain ⟨hn1, hc⟩ := renderLoop_count o trunc w h st.row st.off _ 0 0 st.dirty ws n1 d1
    (by omega) hr
  have hlen2 : ((lines.drop st.off.toNat).length : Int) = (lines.length : Int) - st.off := by
    simp only [List.length_drop]; omega
  rw [hlen2] at hn1 hc
  simp only [sub_zero, zero_add] at hn1 hc
  refine ⟨ws, d1, ?_, hc⟩
  simp [renderPass, hs, hr, hn1]

/-- C1 at three lines, height 2 and the keys `j`, `j`, `k`. -/
theorem C1_witness :
    ∃ st, session exampleOptions (truncateAnsi exampleWidth) ["a", "b", "c"]
        (fixedSize 80 2 ['j', 'j', 'k']) (initNav ["a", "b", "c"]) = .reading st ∧
      0 ≤ st.row ∧ st.row ≤ ((["a", "b", "c"] : List String).length : Int) - 1 ∧
      st.off ≤ st.row ∧ st.row ≤ st.off + 2 - 1 :=
  C1_navigation_invariant exampleOptions (truncateAnsi exampleWidth) ["a", "b", "c"] 80 2
    ['j', 'j', 'k'] (by decide) (by decide) (by decide)

/-- C3 at a move-down from row 0 of three lines inside a window of height 2. -/
theorem C3_witness :
    ∃ st1, moveDown 3 2 { off := 0, row := 0, dirty := [false, false, false] } = some st1 ∧
      st1.off = 0 ∧ st1.row = 1 ∧ st1.dirty = [true, true, false] := by
  obtain ⟨st1, h1, h2, h3, _⟩ :=
    (C3_dirty_marking 3 2 { off := 0, row := 0, dirty := [false, false, false] }
      (by decide) (by decide) (by decide) (by decide) (by decide)).1 (by decide) (by decide)
  exact ⟨st1, h1, h2, h3, by cases h1; decide⟩

/-- Two lines in a window of height 2, not on Windows: the pass writes one
newline and then `ESC[2A`. -/
theorem C5_counterexample :
    renderPass exampleOptions (truncateAnsi exampleWidth) ["a", "b"] 80 2 (initNav ["a", "b"])
      = some (["\x1b[0K", "\x1b[30;47ma\x1b[0m\r", "\n", "\x1b[0K", "b\x1b[0K\r", "\x1b[2A"],
          2, [false, false]) ∧
    (["\x1b[0K", "\x1b[30;47ma\x1b[0m\r", "\n", "\x1b[0K", "b\x1b[0K\r", "\x1b[2A"] :
      List String).count "\n" = 1 := by
  decide

/-- C5 (amended) at two lines and height 2. -/
theorem C5_witness :
    ∃ body d1,
      renderPass exampleOptions (truncateAnsi exampleWidth) ["a", "b"] 80 2 (initNav ["a", "b"]) =
        some (body ++ [cursorUp 2], 2, d1) ∧ (body.count "\n" : Int) = 1 := by
  obtain ⟨body, d1, h1, h2⟩ := C5_cursor_up_count exampleOptions (truncateAnsi exampleWidth)
    ["a", "b"] 80 2 (initNav ["a", "b"]) (by decide) (by decide) (by decide) (by decide)
  exact ⟨body, d1, h1, h2⟩

/-- Input `"a\n\nb"`: one move-down reaches row 1, whose line is empty, and
Enter there ends the run with nothing on standard output and exit status 1,
not with a newline and exit status 0. -/
theorem C6_counterexample :
    session exampleOptions (truncateAnsi exampleWidth) (splitLines "a\n\nb") [exampleKey 'j']
        (initNav (splitLines "a\n\nb")) = .reading { off := 0, row := 1, dirty := [true, true, false] } ∧
    getIdx (splitLines "a\n\nb") 1 = some "" ∧
    finish (session exampleOptions (truncateAnsi exampleWidth) (splitLines "a\n\nb")
        ([exampleKey 'j'] ++ [exampleKey (Char.ofNat 13)]) (initNav (splitLines "a\n\nb")))
      = .exited "" "" 1 true ∧
    finish (session exampleOptions (truncateAnsi exampleWidth) (splitLines "a\n\nb")
        ([exampleKey 'j'] ++ [exampleKey (Char.ofNat 13)]) (initNav (splitLines "a\n\nb")))
      ≠ .exited ("" ++ "\n") "" 0 true := by
  decide

/-- C6 (amended) at row 2 of the lines `a`, empty, `b`. -/
theorem C6_witness :
    finish (session exampleOptions (truncateAnsi exampleWidth) ["a", "", "b"]
      ([exampleKey 'j', exampleKey 'j'] ++ [exampleKey (Char.ofNat 13)])
      (initNav ["a", "", "b"])) = .exited ("b" ++ "\n") "" 0 true :=
  C6_confirm_nonempty exampleOptions (truncateAnsi exampleWidth) ["a", "", "b"]
    [exampleKey 'j', exampleKey 'j'] { off := 0, row := 2, dirty := [false, true, true] }
    (some (80, 25)) "b" (by decide) (by decide) (by decide) (by decide)

/-- C7 at the lines alpha, beta, gamma, height 3: two move-downs and Enter
select `gamma`. -/
theorem C7_witness :
    session exampleOptions (truncateAnsi exampleWidth) ["alpha", "beta", "gamma"]
      (fixedSize 80 3 (['j', 'j'] ++ [Char.ofNat 13])) (initNav ["alpha", "beta", "gamma"])
      = .returned "gamma" := by
  obtain ⟨line, h1, h2⟩ := C7_selection_by_position exampleOptions (truncateAnsi exampleWidth)
    ["alpha", "beta", "gamma"] 80 3 ['j', 'j'] (by decide) (by decide)
  have h3 : line = "gamma" := by
    have h4 : getIdx (["alpha", "beta", "gamma"] : List String)
        (min ((['j', 'j'] : List Char).length : Int)
          (((["alpha", "beta", "gamma"] : List String).length : Int) - 1)) = some "gamma" := by
      decide
    rw [h4] at h1; cases h1; rfl
  subst h3; exact h2

theorem getIdx_cons_zero {α : Type} (a : α) (l : List α) : getIdx (a :: l) 0 = some a := by
  simp [getIdx]

theorem getIdx_cons_succ {α : Type} (a : α) (l : List α) (j : Int) (hj : 0 ≤ j) :
    getIdx (a :: l) (j + 1) = getIdx l j := by
  have h1 : (j + 1).toNat = j.toNat + 1 := by omega
  have h2 : 0 ≤ j + 1 := by omega
  simp [getIdx, hj, h1, h2]

theorem getIdx_lt_length {α : Type} (xs : List α) (i : Int) (a : α)
    (h : getIdx xs i = some a) : 0 ≤ i ∧ i.toNat < xs.length := by
  unfold getIdx at h
  split at h
  · rename_i h0
    refine ⟨h0, ?_⟩
    by_contra hc
    rw [List.get?_eq_none.mpr (by omega)] at h
    cases h
  · cases h

theorem drop_of_getIdx {α : Type} (xs : List α) (i : Int) (a : α)
    (h : getIdx xs i = some a) : xs.drop i.toNat = a :: xs.drop (i.toNat + 1) := by
  obtain ⟨h0, h1⟩ := getIdx_lt_length xs i a h
  rw [List.drop_eq_getElem_cons h1]
  congr 1
  simp only [getIdx, h0, if_true, List.get?_eq_getElem?, List.getElem?_eq_getElem h1,
    Option.some.injEq] at h
  exact h

/-- The flags after the body of the loop has run for line `off + i`. -/
theorem getIdx_clear (dirty : List Bool) (k : Int) (flag : Bool)
    (hflag : getIdx dirty k = some flag) (idx : Int) :
    getIdx (if flag = true then dirty.set k.toNat false else dirty) idx =
      if idx = k then some false else getIdx dirty idx := by
  obtain ⟨h0, h1⟩ := getIdx_lt_length dirty k flag hflag
  by_cases hk : idx = k
  · subst hk
    cases flag with
    | false => simpa using hflag
    | true => simpa using getIdx_set_self dirty idx false h0 (by omega)
  · cases flag with
    | false => simp [hk]
    | true => simpa [hk] using getIdx_set_ne dirty k idx false h0 hk

/-- One iteration of the render loop, for the flag `dirty[off+i]`. -/
theorem renderLoop_cons_eq (o : Options) (trunc : String → Int → String → String)
    (w h row off : Int) (line : String) (rest : List String) (i n : Int) (dirty : List Bool)
    (flag : Bool) (hflag : getIdx dirty (off + i) = some flag) :
    renderLoop o trunc w h row off (line :: rest) i n dirty =
      if n + 1 ≥ h then
        some ((if flag = true then
                [fillstart o, paintText o row (off + i) (trunc (expandTabs line) w "")]
               else []) ++ (if o.windows then ["\n"] else []),
              n + 1, if flag = true then dirty.set (off + i).toNat false else dirty)
      else
        match renderLoop o trunc w h row off rest (i + 1) (n + 1)
            (if flag = true then dirty.set (off + i).toNat false else dirty) with
        | none => none
        | some (more, n2, d2) =>
          some ((if flag = true then
                  [fillstart o, paintText o row (off + i) (trunc (expandTabs line) w "")]
                 else []) ++ "\n" :: more, n2, d2) := by
  obtain ⟨h0, h1⟩ := getIdx_lt_length dirty (off + i) flag hflag
  rw [renderLoop]
  simp only [hflag]
  cases flag with
  | false => simp
  | true => simp [setIdx_eq_some _ _ _ h0 (by omega : off + i < dirty.length)]

/-- What the render loop does from iteration `i` on: it visits `n1 - n`
lines, every write is a newline or paints a visited line whose flag was
set, each such line takes two writes, and the flags of the visited lines
are cleared. -/
theorem renderLoop_window (o : Options) (trunc : String → Int → String → String)
    (w h row off : Int) :
    ∀ (ls : List String) (i n : Int) (dirty : List Bool) (ws : List String) (n1 : Int)
      (d1 : List Bool), 0 ≤ off + i → off + i + ls.length ≤ dirty.length →
      renderLoop o trunc w h row off ls i n dirty = some (ws, n1, d1) →
      n ≤ n1 ∧ n1 - n ≤ ls.length ∧
      (∀ s ∈ ws, s = "\n" ∨ ∃ j line, 0 ≤ j ∧ j < n1 - n ∧
        getIdx dirty (off + i + j) = some true ∧ getIdx ls j = some line ∧
        (s = fillstart o ∨ s = paintText o row (off + i + j) (trunc (expandTabs line) w ""))) ∧
      (ws.filter (fun s => decide (s ≠ "\n"))).length =
        2 * ((dirty.drop (off + i).toNat).take (n1 - n).toNat).count true ∧
      (∀ idx, getIdx d1 idx =
        if off + i ≤ idx ∧ idx < off + i + (n1 - n) then some false else getIdx dirty idx) := by
  intro ls
  induction ls with
  | nil =>
    intro i n dirty ws n1 d1 _ _ hr
    simp only [renderLoop, Option.some.injEq, Prod.mk.injEq] at hr
    obtain ⟨rfl, rfl, rfl⟩ := hr
    refine ⟨le_refl _, by simp, by simp, by simp, ?_⟩
    intro idx
    rw [if_neg (by omega)]
  | cons line rest ih =>
    intro i n dirty ws n1 d1 h0 h1 hr
    simp only [List.length_cons, Nat.cast_add, Nat.cast_one] at h1 ⊢
    have hlt : off + i < dirty.length := by omega
    obtain ⟨flag, hflag⟩ := getIdx_eq_some dirty (off + i) h0 hlt
    rw [renderLoop_cons_eq o trunc w h row off line rest i n dirty flag hflag] at hr
    have hdrop := drop_of_getIdx dirty (off + i) flag hflag
    -- the writes of this row
    have hrow : ∀ s ∈ (if flag = true then
          [fillstart o, paintText o row (off + i) (trunc (expandTabs line) w "")] else []),
        flag = true ∧
          (s = fillstart o ∨ s = paintText o row (off + i) (trunc (expandTabs line) w "")) := by
      intro s hs
      cases flag with
      | false => simp at hs
      | true => simpa using hs
    have hrowlen : ((if flag = true then
          [fillstart o, paintText o row (off + i) (trunc (expandTabs line) w "")] else []).filter
          (fun s => decide (s ≠ "\n"))).length = 2 * (if flag = true then 1 else 0) := by
      cases flag with
      | false => simp
      | true => simp [fillstart_ne_newline, paintText_ne_newline]
    have hclear := getIdx_clear dirty (off + i) flag hflag
    split at hr
    · -- the loop stops after this line
      simp only [Option.some.injEq, Prod.mk.injEq] at hr
      obtain ⟨rfl, rfl, rfl⟩ := hr
      have hone : n + 1 - n = 1 := by omega
      rw [hone]
      refine ⟨by omega, by omega, ?_, ?_, ?_⟩
      · intro s hs
        rw [List.mem_append] at hs
        rcases hs with hs | hs
        · obtain ⟨hf, hsv⟩ := hrow s hs
          right
          refine ⟨0, line, le_refl _, by omega, ?_, getIdx_cons_zero _ _, ?_⟩
          · rw [add_zero, hflag, hf]
          · rw [add_zero]; exact hsv
        · left
          cases hw : o.windows <;> simp [hw] at hs
          exact hs
      · rw [List.filter_append, List.length_append, hrowlen, hdrop]
        have hnl : ((if o.windows = true then ["\n"] else []).filter
            (fun s => decide (s ≠ "\n"))).length = 0 := by
          cases hw : o.windows <;> simp
        rw [hnl]
        cases flag <;> simp
      · intro idx
        rw [hclear idx]
        by_cases hk : idx = off + i
        · rw [if_pos hk, if_pos (by omega)]
        · rw [if_neg hk, if_neg (by omega)]
    · -- the loop goes on with the next line
      split at hr
      · cases hr
      · rename_i more n2 d2 hrec
        simp only [Option.some.injEq, Prod.mk.injEq] at hr
        obtain ⟨rfl, rfl, rfl⟩ := hr
        have hlen1 : (if flag = true then dirty.set (off + i).toNat false else dirty).length
            = dirty.length := by
          cases flag <;> simp
        obtain ⟨ha, hb, hc, hd, he⟩ := ih (i + 1) (n + 1) _ more n2 d2 (by omega)
          (by rw [hlen1]; omega) hrec
        have hdrop1 : (if flag = true then dirty.set (off + i).toNat false else dirty).drop
            (off + (i + 1)).toNat = dirty.drop ((off + i).toNat + 1) := by
          have hk : (off + (i + 1)).toNat = (off + i).toNat + 1 := by omega
          rw [hk]
          cases flag with
          | false => simp
          | true => simp only [if_true]; exact List.drop_set_of_lt _ _ (by omega)
        refine ⟨by omega, by omega, ?_, ?_, ?_⟩
        · intro s hs
          rw [List.mem_append] at hs
          rcases hs with hs | hs
          · obtain ⟨hf, hsv⟩ := hrow s hs
            right
            refine ⟨0, line, le_refl _, by omega, ?_, getIdx_cons_zero _ _, ?_⟩
            · rw [add_zero, hflag, hf]
            · rw [add_zero]; exact hsv
          · rw [List.mem_cons] at hs
            rcases hs with hs | hs
            · left; exact hs
            · rcases hc s hs with hs1 | ⟨j, line1, hj0, hj1, hj2, hj3, hj4⟩
              · left; exact hs1
              · right
                refine ⟨j + 1, line1, by omega, by omega, ?_, ?_, ?_⟩
                · rw [hclear, if_neg (by omega)] at hj2
                  rw [← hj2]; congr 1; omega
                · rw [getIdx_cons_succ _ _ _ hj0]; exact hj3
                · have hk : off + i + (j + 1) = off + (i + 1) + j := by omega
                  rw [hk]; exact hj4
        · rw [List.filter_append, List.length_append, hrowlen]
          have hcons : (("\n" :: more).filter (fun s => decide (s ≠ "\n"))).length =
              (more.filter (fun s => decide (s ≠ "\n"))).length := by
            simp
          rw [hcons, hd, hdrop1, hdrop]
          have hm : (n2 - n).toNat = (n2 - (n + 1)).toNat + 1 := by omega
          rw [hm, List.take_succ_cons, List.count_cons]
          cases flag with
          | false => simp
          | true => simp; omega
        · intro idx
          rw [he idx, hclear idx]
          by_cases hk : idx = off + i
          · rw [if_neg (by omega), if_pos hk, if_pos (by omega)]
          · rw [if_neg hk]
            by_cases hin : off + (i + 1) ≤ idx ∧ idx < off + (i + 1) + (n2 - (n + 1))
            · rw [if_pos hin, if_pos (by omega)]
            · rw [if_neg hin, if_neg (by omega)]

theorem getIdx_drop {α : Type} (xs : List α) (off j : Int) (h0 : 0 ≤ off) (hj : 0 ≤ j) :
    getIdx (xs.drop off.toNat) j = getIdx xs (off + j) := by
  have h1 : (off + j).toNat = off.toNat + j.toNat := by omega
  have h2 : 0 ≤ off + j := by omega
  simp [getIdx, hj, h1, h2, List.getElem?_drop]

theorem eq_of_getIdx_eq {α : Type} (xs ys : List α)
    (h : ∀ idx : Int, getIdx xs idx = getIdx ys idx) : xs = ys := by
  apply List.ext_get?
  intro k
  have := h (k : Int)
  simpa [getIdx] using this

/-- C4. In every render pass each write before the final cursor-up is a
newline or belongs to a visited line whose dirty flag is set (its fill
prefix or its painted text); every such line takes exactly two writes, so
a visited line whose flag is false writes nothing.  When every visited
flag is false the pass writes only newlines and the cursor-up sequence,
and changes no flag. -/
theorem C4_minimal_redraw (o : Options) (trunc : String → Int → String → String)
    (lines : List String) (w h : Int) (st : Nav)
    (hlen : st.dirty.length = lines.length) (h0 : 0 ≤ st.off)
    (h1 : st.off ≤ (lines.length : Int)) :
    ∃ body n d1, renderPass o trunc lines w h st = some (body ++ [cursorUp n], n, d1) ∧
      (∀ s ∈ body, s = "\n" ∨ ∃ idx line, st.off ≤ idx ∧ idx < st.off + n ∧
        getIdx st.dirty idx = some true ∧ getIdx lines idx = some line ∧
        (s = fillstart o ∨ s = paintText o st.row idx (trunc (expandTabs line) w ""))) ∧
      (body.filter (fun s => decide (s ≠ "\n"))).length =
        2 * ((st.dirty.drop st.off.toNat).take n.toNat).count true ∧
      ((∀ idx, st.off ≤ idx → idx < st.off + n → getIdx st.dirty idx = some false) →
        body = List.replicate body.length "\n" ∧ d1 = st.dirty) := by
  have hs : sliceFrom lines st.off = some (lines.drop st.off.toNat) := by
    simp [sliceFrom, h0, h1]
  have hb : st.off + (0 : Int) + ((lines.drop st.off.toNat).length : Int) ≤ st.dirty.length := by
    simp only [List.length_drop, hlen]; omega
  obtain ⟨ws, n1, d1, hr, _⟩ := renderLoop_ok o trunc w h st.row st.off
    (lines.drop st.off.toNat) 0 0 st.dirty (by omega) hb
  obtain ⟨_, _, hc, hd, he⟩ := renderLoop_window o trunc w h st.row st.off _ 0 0 st.dirty
    ws n1 d1 (by omega) hb hr
  simp only [add_zero, sub_zero] at hc hd he
  have hmem : ∀ s ∈ ws, s = "\n" ∨ ∃ idx line, st.off ≤ idx ∧ idx < st.off + n1 ∧
      getIdx st.dirty idx = some true ∧ getIdx lines idx = some line ∧
      (s = fillstart o ∨ s = paintText o st.row idx (trunc (expandTabs line) w "")) := by
    intro s hsm
    rcases hc s hsm with hs1 | ⟨j, line, hj0, hj1, hj2, hj3, hj4⟩
    · left; exact hs1
    · right
      refine ⟨st.off + j, line, by omega, by omega, hj2, ?_, hj4⟩
      rw [← getIdx_drop lines st.off j h0 hj0]; exact hj3
  refine ⟨ws, n1, d1, by simp [renderPass, hs, hr], hmem, hd, ?_⟩
  intro hclean
  constructor
  · apply List.eq_replicate_of_mem
    intro s hsm
    rcases hmem s hsm with hs1 | ⟨idx, _, hi0, hi1, hi2, _, _⟩
    · exact hs1
    · rw [hclean idx hi0 hi1] at hi2; cases hi2
  · apply eq_of_getIdx_eq
    intro idx
    rw [he idx]
    split
    · rename_i hin
      exact (hclean idx hin.1 hin.2).symm
    · rfl

/-- C4 at three lines of which only the cursor line is dirty. -/
theorem C4_witness :
    ∃ body n d1,
      renderPass exampleOptions (truncateAnsi exampleWidth) ["a", "b", "c"] 80 5
          { off := 0, row := 1, dirty := [false, true, false] }
        = some (body ++ [cursorUp n], n, d1) ∧
      (body.filter (fun s => decide (s ≠ "\n"))).length =
        2 * ((([false, true, false] : List Bool).drop (0 : Int).toNat).take n.toNat).count true := by
  obtain ⟨body, n, d1, h1, _, h3, _⟩ := C4_minimal_redraw exampleOptions
    (truncateAnsi exampleWidth) ["a", "b", "c"] 80 5
    { off := 0, row := 1, dirty := [false, true, false] } (by decide) (by decide) (by decide)
  exact ⟨body, n, d1, h1, h3⟩

/-! ## Truncation -/

/-- The widths of the runes appended one by one never pass `w`. -/
theorem truncLoop_width (RuneWidth : Char → Nat) (w : Int) :
    ∀ (fuel : Nat) (r : List Char) (width : Int), width ≤ w →
      width + (plainWidth RuneWidth (truncLoop RuneWidth w fuel r width) : Int) ≤ w := by
  intro fuel
  induction fuel with
  | zero => intro r width hw; simpa [truncLoop, plainWidth] using hw
  | succ fuel ih =>
    intro r width hw
    cases r with
    | nil => simpa [truncLoop, plainWidth] using hw
    | cons c rest =>
      rw [truncLoop]
      split
      · simp only []
        split
        · simpa [plainWidth] using hw
        · split
          · simpa [plainWidth] using ih _ width hw
          · exact ih _ width hw
      · simp only []
        split
        · simpa [plainWidth] using hw
        · rename_i hfit
          have := ih rest (width + (RuneWidth c : Int)) (by omega)
          simp only [plainWidth, Nat.cast_add]
          omega

/-- C2. For every line and every width `w ≥ 0`, the result of
`truncateAnsi` is made of the pieces the loop appended, and the column
widths of the runes among them that are not part of an emitted escape
sequence sum to at most `w`. -/
theorem C2_width_bound (RuneWidth : Char → Nat) (line : String) (w : Int) (tail : String)
    (hw : 0 ≤ w) :
    truncateAnsi RuneWidth line w tail =
        String.mk (((truncPieces RuneWidth line.data w).map Piece.runes).flatten) ∧
      (plainWidth RuneWidth (truncPieces RuneWidth line.data w) : Int) ≤ w := by
  refine ⟨rfl, ?_⟩
  have := truncLoop_width RuneWidth w line.data.length line.data 0 hw
  simpa [truncPieces] using this

/-- C2 at a red `abc` truncated to width 2. -/
theorem C2_witness :
    truncateAnsi exampleWidth "\x1b[31mabc" 2 "" = "\x1b[31mab" ∧
      (plainWidth exampleWidth (truncPieces exampleWidth "\x1b[31mabc".data 2) : Int) ≤ 2 := by
  have h := C2_width_bound exampleWidth "\x1b[31mabc" 2 "" (by decide)
  exact ⟨by decide, h.2⟩

/-- C8 (the failing input). A graphic-rendition sequence none of whose
parameters is allowed is not dropped: for `ESC[1m` the function returns
`ESC[m`, for every width and every rune-width function. -/
theorem C8_empty_sgr (RuneWidth : Char → Nat) (w : Int) (tail : String) :
    truncateAnsi RuneWidth "\x1b[1m" w tail = "\x1b[m" := by
  rfl

theorem dropWhile_length_lt (p : Char → Bool) (l : List Char) (t : Char) (after : List Char)
    (h : l.dropWhile p = t :: after) : after.length < l.length := by
  have h1 := (List.dropWhile_sublist p (l := l)).length_le
  rw [h] at h1
  simp only [List.length_cons] at h1
  omega

/-- The loop of `truncateAnsi` does not depend on the fuel once the fuel is
at least the number of runes left. -/
theorem truncLoop_fuel (RuneWidth : Char → Nat) (w : Int) :
    ∀ (fuel1 fuel2 : Nat) (r : List Char) (width : Int),
      r.length ≤ fuel1 → r.length ≤ fuel2 →
      truncLoop RuneWidth w fuel1 r width = truncLoop RuneWidth w fuel2 r width := by
  intro fuel1
  induction fuel1 with
  | zero =>
    intro fuel2 r width h1 _
    have hr : r = [] := List.length_eq_zero.mp (by omega)
    subst hr
    cases fuel2 <;> simp [truncLoop]
  | succ fuel1 ih =>
    intro fuel2 r width h1 h2
    cases r with
    | nil => cases fuel2 <;> simp [truncLoop]
    | cons c rest =>
      cases fuel2 with
      | zero => simp at h2
      | succ fuel2 =>
        simp only [List.length_cons, Nat.add_le_add_iff_right] at h1 h2
        rw [truncLoop, truncLoop]
        split
        · simp only []
          split
          · rfl
          · rename_i t after hdrop
            have hlen := dropWhile_length_lt _ _ _ _ hdrop
            have htail : rest.tail.length ≤ rest.length := by simp
            rw [ih fuel2 after width (by omega) (by omega)]
        · simp only []
          split
          · rfl
          · rw [ih fuel2 rest _ h1 h2]

/-- The loop on an empty rest. -/
theorem truncLoop_nil (RuneWidth : Char → Nat) (w : Int) (fuel : Nat) (width : Int) :
    truncLoop RuneWidth w fuel [] width = [] := by
  cases fuel <;> simp [truncLoop]

/-- The loop at a rune that does not start an escape sequence. -/
theorem truncLoop_rune (RuneWidth : Char → Nat) (w : Int) (fuel : Nat) (c : Char)
    (rest : List Char) (width : Int) (hfuel : rest.length < fuel)
    (hc : ¬ (c = ESC ∧ rest.head? = some '[')) :
    truncLoop RuneWidth w fuel (c :: rest) width =
      if width + (RuneWidth c : Int) > w then []
      else Piece.rune c :: truncLoop RuneWidth w rest.length rest (width + (RuneWidth c : Int)) := by
  cases fuel with
  | zero => omega
  | succ fuel =>
    rw [truncLoop, if_neg hc]
    simp only []
    split
    · rfl
    · rw [truncLoop_fuel RuneWidth w fuel rest.length rest _ (by omega) (le_refl _)]

/-- The loop at a graphic-rendition sequence. -/
theorem truncLoop_sgr (RuneWidth : Char → Nat) (w : Int) (fuel : Nat)
    (params rest : List Char) (width : Int)
    (hfuel : (ESC :: '[' :: (params ++ 'm' :: rest)).length ≤ fuel)
    (hp : ∀ c ∈ params, isLetter c = false) :
    truncLoop RuneWidth w fuel (ESC :: '[' :: (params ++ 'm' :: rest)) width =
      Piece.esc (sgrEmit params) :: truncLoop RuneWidth w rest.length rest width := by
  cases fuel with
  | zero => simp at hfuel
  | succ fuel =>
    have hp1 : ∀ c ∈ params, (fun x => !isLetter x) c = true := by
      intro c hc; simp [hp c hc]
    have hm : ¬ ((fun x => !isLetter x) 'm' = true) := by decide
    have hdrop : (params ++ 'm' :: rest).dropWhile (fun x => !isLetter x) = 'm' :: rest := by
      rw [List.dropWhile_append_of_pos hp1]
      exact List.dropWhile_cons_of_neg hm
    have htake : (params ++ 'm' :: rest).takeWhile (fun x => !isLetter x) = params := by
      have hnil : ('m' :: rest).takeWhile (fun x => !isLetter x) = [] :=
        List.takeWhile_cons_of_neg hm
      rw [List.takeWhile_append_of_pos hp1, hnil, List.append_nil]
    rw [truncLoop, if_pos ⟨rfl, rfl⟩]
    simp only [List.tail_cons, hdrop, htake, if_true]
    congr 1
    apply truncLoop_fuel
    · simp only [List.length_cons, List.length_append] at hfuel; omega
    · exact le_refl _

/-! ## The parameters of a rewritten sequence -/

theorem tailJoin_cons (k : List Char) (ks : List (List Char)) :
    tailJoin (k :: ks) = ';' :: (k ++ tailJoin ks) := by
  simp [tailJoin]

theorem atoi_nil : atoi [] = 0 := by decide

theorem keptTokens_cons (tok : List Char) (toks : List (List Char)) :
    keptTokens (tok :: toks) =
      if allowedCode (atoi tok) then
        (if atoi tok = 0 then ['3', '9'] else tok) :: keptTokens toks
      else keptTokens toks := by
  unfold keptTokens
  rw [List.filterMap_cons]
  split <;> simp_all

/-- The string `s` the parameter loop builds, from the tokens it keeps. -/
theorem sgrParams_eq : ∀ (toks : List (List Char)) (s : List Char),
    sgrParams toks s =
      if s ≠ [] then s ++ tailJoin (keptTokens toks)
      else match keptTokens toks with
        | [] => []
        | k :: ks => k ++ tailJoin ks := by
  intro toks
  induction toks with
  | nil =>
    intro s
    by_cases hs : s = [] <;> simp [sgrParams, keptTokens, tailJoin, hs]
  | cons tok toks ih =>
    intro s
    rw [sgrParams, keptTokens_cons]
    simp only []
    by_cases ha : allowedCode (atoi tok) = true
    · rw [if_pos ha, if_pos ha]
      have htok : (if atoi tok = 0 then ['3', '9'] else tok) ≠ [] := by
        split
        · simp
        · rename_i hn
          intro hnil
          rw [hnil] at hn
          exact hn atoi_nil
      rw [ih]
      have hacc : (if s ≠ [] then s ++ [';'] else s) ++ (if atoi tok = 0 then ['3', '9'] else tok)
          ≠ [] := by
        simp only [ne_eq, List.append_eq_nil, not_and]
        intro _; exact htok
      rw [if_pos hacc]
      by_cases hs : s = []
      · simp [hs]
      · simp [hs, tailJoin_cons]
    · rw [if_neg ha, if_neg ha]
      exact ih s

theorem splitSep_ne_nil (sep : Char) : ∀ l : List Char, splitSep sep l ≠ [] := by
  intro l
  induction l with
  | nil => simp [splitSep]
  | cons c cs ih =>
    rw [splitSep]
    split
    · simp
    · split <;> simp

/-- The pieces of `strings.Split` are made of runes of the string, none of
them the separator. -/
theorem splitSep_mem (sep : Char) : ∀ (l : List Char) (tok : List Char),
    tok ∈ splitSep sep l → ∀ c ∈ tok, c ≠ sep ∧ c ∈ l := by
  intro l
  induction l with
  | nil =>
    intro tok htok c hc
    simp only [splitSep, List.mem_singleton] at htok
    subst htok
    simp at hc
  | cons a cs ih =>
    intro tok htok c hc
    rw [splitSep] at htok
    split at htok
    · rw [List.mem_cons] at htok
      rcases htok with rfl | htok
      · simp at hc
      · obtain ⟨h1, h2⟩ := ih tok htok c hc
        exact ⟨h1, List.mem_cons_of_mem _ h2⟩
    · rename_i hne
      split at htok
      · rename_i hnil
        exact absurd hnil (splitSep_ne_nil sep cs)
      · rename_i p ps hsp
        rw [List.mem_cons] at htok
        rcases htok with rfl | htok
        · rw [List.mem_cons] at hc
          rcases hc with rfl | hc
          · exact ⟨hne, List.mem_cons_self _ _⟩
          · obtain ⟨h1, h2⟩ := ih p (by rw [hsp]; exact List.mem_cons_self _ _) c hc
            exact ⟨h1, List.mem_cons_of_mem _ h2⟩
        · obtain ⟨h1, h2⟩ := ih tok (by rw [hsp]; exact List.mem_cons_of_mem _ htok) c hc
          exact ⟨h1, List.mem_cons_of_mem _ h2⟩

/-- Splitting the joined tokens gives the tokens back. -/
theorem splitSep_join : ∀ (ks : List (List Char)) (k : List Char),
    (∀ c ∈ k, c ≠ ';') → (∀ k1 ∈ ks, ∀ c ∈ k1, c ≠ ';') →
    splitSep ';' (k ++ tailJoin ks) = k :: ks := by
  intro ks
  induction ks with
  | nil =>
    intro k hk _
    simp only [tailJoin, List.map_nil, List.flatten_nil, List.append_nil]
    induction k with
    | nil => rfl
    | cons c k ihk =>
      rw [splitSep, if_neg (hk c (List.mem_cons_self _ _)),
        ihk (fun c hc => hk c (List.mem_cons_of_mem _ hc))]
  | cons k1 ks ih =>
    intro k hk hks
    induction k with
    | nil =>
      rw [List.nil_append, tailJoin_cons, splitSep, if_pos rfl,
        ih k1 (hks k1 (List.mem_cons_self _ _))
          (fun k2 hk2 => hks k2 (List.mem_cons_of_mem _ hk2))]
    | cons c k ihk =>
      rw [List.cons_append, splitSep, if_neg (hk c (List.mem_cons_self _ _)),
        ihk (fun c hc => hk c (List.mem_cons_of_mem _ hc))]

/-- A kept token has an allowed code other than 0, and it is `"39"` or one
of the tokens read. -/
theorem keptTokens_mem : ∀ (toks : List (List Char)) (k : List Char),
    k ∈ keptTokens toks →
      allowedCode (atoi k) = true ∧ atoi k ≠ 0 ∧ (k = ['3', '9'] ∨ k ∈ toks) := by
  intro toks
  induction toks with
  | nil => intro k hk; simp [keptTokens] at hk
  | cons tok toks ih =>
    intro k hk
    rw [keptTokens_cons] at hk
    split at hk
    · rename_i ha
      rw [List.mem_cons] at hk
      rcases hk with rfl | hk
      · split
        · exact ⟨by decide, by decide, Or.inl rfl⟩
        · rename_i hn
          exact ⟨ha, hn, Or.inr (List.mem_cons_self _ _)⟩
      · obtain ⟨h1, h2, h3⟩ := ih k hk
        exact ⟨h1, h2, h3.imp id (List.mem_cons_of_mem _)⟩
    · obtain ⟨h1, h2, h3⟩ := ih k hk
      exact ⟨h1, h2, h3.imp id (List.mem_cons_of_mem _)⟩

/-- Tokens with allowed codes other than 0 are all kept, unchanged. -/
theorem keptTokens_fixed : ∀ (ks : List (List Char)),
    (∀ k ∈ ks, allowedCode (atoi k) = true ∧ atoi k ≠ 0) → keptTokens ks = ks := by
  intro ks
  induction ks with
  | nil => intro _; rfl
  | cons k ks ih =>
    intro h
    obtain ⟨h1, h2⟩ := h k (List.mem_cons_self _ _)
    rw [keptTokens_cons, if_pos h1, if_neg h2,
      ih (fun k1 hk1 => h k1 (List.mem_cons_of_mem _ hk1))]

theorem mem_tailJoin (ks : List (List Char)) (c : Char) (hc : c ∈ tailJoin ks) :
    c = ';' ∨ ∃ k ∈ ks, c ∈ k := by
  induction ks with
  | nil => simp [tailJoin] at hc
  | cons k ks ih =>
    rw [tailJoin_cons, List.mem_cons, List.mem_append] at hc
    rcases hc with h | h | h
    · exact Or.inl h
    · exact Or.inr ⟨k, List.mem_cons_self _ _, h⟩
    · rcases ih h with h1 | ⟨k1, hk1, hc1⟩
      · exact Or.inl h1
      · exact Or.inr ⟨k1, List.mem_cons_of_mem _ hk1, hc1⟩

/-- The parameter string of a rewritten sequence that kept a token: it has
no letter, and rewriting it again gives the same string. -/
theorem sgrParams_idem (params : List Char) (hp : ∀ c ∈ params, isLetter c = false)
    (hk : keptTokens (splitSep ';' params) ≠ []) :
    (∀ c ∈ sgrParams (splitSep ';' params) [], isLetter c = false) ∧
      sgrParams (splitSep ';' (sgrParams (splitSep ';' params) [])) [] =
        sgrParams (splitSep ';' params) [] := by
  have hchars : ∀ k ∈ keptTokens (splitSep ';' params), ∀ c ∈ k,
      c ≠ ';' ∧ isLetter c = false := by
    intro k hkm c hc
    obtain ⟨_, _, h3⟩ := keptTokens_mem _ k hkm
    rcases h3 with rfl | h3
    · simp only [List.mem_cons, List.mem_singleton, List.not_mem_nil, or_false] at hc
      rcases hc with rfl | rfl <;> exact ⟨by decide, by decide⟩
    · obtain ⟨h4, h5⟩ := splitSep_mem ';' params k h3 c hc
      exact ⟨h4, hp c h5⟩
  have hcodes : ∀ k ∈ keptTokens (splitSep ';' params),
      allowedCode (atoi k) = true ∧ atoi k ≠ 0 := by
    intro k hkm
    obtain ⟨h1, h2, _⟩ := keptTokens_mem _ k hkm
    exact ⟨h1, h2⟩
  have hS : sgrParams (splitSep ';' params) [] =
      match keptTokens (splitSep ';' params) with
      | [] => []
      | k :: ks => k ++ tailJoin ks := by
    rw [sgrParams_eq]; simp
  cases hK : keptTokens (splitSep ';' params) with
  | nil => exact absurd hK hk
  | cons k ks =>
    rw [hK] at hchars hcodes hS
    simp only [] at hS
    rw [hS]
    constructor
    · intro c hc
      rw [List.mem_append] at hc
      rcases hc with hc | hc
      · exact (hchars k (List.mem_cons_self _ _) c hc).2
      · rcases mem_tailJoin ks c hc with rfl | ⟨k1, hk1, hc1⟩
        · decide
        · exact (hchars k1 (List.mem_cons_of_mem _ hk1) c hc1).2
    · rw [splitSep_join ks k (fun c hc => (hchars k (List.mem_cons_self _ _) c hc).1)
        (fun k1 hk1 c hc => (hchars k1 (List.mem_cons_of_mem _ hk1) c hc).1)]
      rw [sgrParams_eq, keptTokens_fixed (k :: ks) hcodes]
      simp

/-- When every token of the parameters has an allowed code, a token is
kept. -/
theorem keptTokens_ne_nil (params : List Char)
    (h : ∀ tok ∈ splitSep ';' params, allowedCode (atoi tok) = true) :
    keptTokens (splitSep ';' params) ≠ [] := by
  cases hs : splitSep ';' params with
  | nil => exact absurd hs (splitSep_ne_nil ';' params)
  | cons tok toks =>
    rw [hs] at h
    rw [keptTokens_cons, if_pos (h tok (List.mem_cons_self _ _))]
    simp

/-! ## Truncating twice -/

theorem truncFrom_nil (RuneWidth : Char → Nat) (w : Int) (width : Int) :
    truncFrom RuneWidth w [] width = [] := by
  simp [truncFrom, truncLoop_nil]

theorem truncFrom_rune (RuneWidth : Char → Nat) (w : Int) (c : Char) (rest : List Char)
    (width : Int) (hc : ¬ (c = ESC ∧ rest.head? = some '[')) :
    truncFrom RuneWidth w (c :: rest) width =
      if width + (RuneWidth c : Int) > w then []
      else c :: truncFrom RuneWidth w rest (width + (RuneWidth c : Int)) := by
  unfold truncFrom
  rw [truncLoop_rune RuneWidth w _ c rest width (by simp) hc]
  split <;> simp [Piece.runes]

theorem truncFrom_sgr (RuneWidth : Char → Nat) (w : Int) (params rest : List Char)
    (width : Int) (hp : ∀ c ∈ params, isLetter c = false) :
    truncFrom RuneWidth w (ESC :: '[' :: (params ++ 'm' :: rest)) width =
      sgrEmit params ++ truncFrom RuneWidth w rest width := by
  unfold truncFrom
  rw [truncLoop_sgr RuneWidth w _ params rest width (le_refl _) hp]
  simp [Piece.runes]

/-- On a line of allowed sequences the output starts with the first rune of
the line, when it is not empty, and truncating it again changes nothing. -/
theorem truncFrom_idem (RuneWidth : Char → Nat) (w : Int) (r : List Char)
    (hr : AllowedLine r) :
    ∀ width : Int,
      ((truncFrom RuneWidth w r width).head? = none ∨
        (truncFrom RuneWidth w r width).head? = r.head?) ∧
      truncFrom RuneWidth w (truncFrom RuneWidth w r width) width =
        truncFrom RuneWidth w r width := by
  induction hr with
  | nil =>
    intro width
    simp [truncFrom_nil]
  | rune c rest hc _ ih =>
    intro width
    rw [truncFrom_rune RuneWidth w c rest width hc]
    by_cases hfit : width + (RuneWidth c : Int) > w
    · rw [if_pos hfit]
      simp [truncFrom_nil]
    · rw [if_neg hfit]
      obtain ⟨hhead, hidem⟩ := ih (width + (RuneWidth c : Int))
      refine ⟨Or.inr rfl, ?_⟩
      have hc1 : ¬ (c = ESC ∧
          (truncFrom RuneWidth w rest (width + (RuneWidth c : Int))).head? = some '[') := by
        rintro ⟨h1, h2⟩
        rcases hhead with h3 | h3
        · rw [h3] at h2; cases h2
        · rw [h3] at h2; exact hc ⟨h1, h2⟩
      rw [truncFrom_rune RuneWidth w c _ width hc1, if_neg hfit, hidem]
  | sgr params rest hp htok _ ih =>
    intro width
    rw [truncFrom_sgr RuneWidth w params rest width hp]
    obtain ⟨_, hidem⟩ := ih width
    obtain ⟨hS, hSS⟩ := sgrParams_idem params hp (keptTokens_ne_nil params htok)
    refine ⟨Or.inr rfl, ?_⟩
    have hshape : sgrEmit params ++ truncFrom RuneWidth w rest width =
        ESC :: '[' :: (sgrParams (splitSep ';' params) [] ++
          'm' :: truncFrom RuneWidth w rest width) := by
      simp [sgrEmit]
    rw [hshape, truncFrom_sgr RuneWidth w _ _ width hS, hidem]
    simp [sgrEmit, hSS]

/-- C9. For every line whose escape sequences are all allowed ones and
every width `W`, truncating the truncated line again at `W` returns it
unchanged. -/
theorem C9_idempotent (RuneWidth : Char → Nat) (line : String) (W : Int) (tail : String)
    (hline : AllowedLine line.data) :
    truncateAnsi RuneWidth (truncateAnsi RuneWidth line W tail) W tail =
      truncateAnsi RuneWidth line W tail := by
  have h := (truncFrom_idem RuneWidth W line.data hline 0).2
  unfold truncateAnsi truncRunes truncPieces
  unfold truncFrom at h
  simp only [h]

/-- C9 at a line with a reset-and-red sequence and a lone escape rune. -/
theorem C9_witness :
    AllowedLine "\x1b[0;31mab\x1bc".data ∧
      truncateAnsi exampleWidth "\x1b[0;31mab\x1bc" 2 "" = "\x1b[39;31mab\x1b" ∧
      truncateAnsi exampleWidth (truncateAnsi exampleWidth "\x1b[0;31mab\x1bc" 2 "") 2 "" =
        truncateAnsi exampleWidth "\x1b[0;31mab\x1bc" 2 "" := by
  have hl : AllowedLine "\x1b[0;31mab\x1bc".data :=
    AllowedLine.sgr ['0', ';', '3', '1'] ['a', 'b', ESC, 'c'] (by decide) (by decide)
      (AllowedLine.rune 'a' _ (by decide)
        (AllowedLine.rune 'b' _ (by decide)
          (AllowedLine.rune ESC _ (by decide)
            (AllowedLine.rune 'c' _ (by decide) AllowedLine.nil))))
  exact ⟨hl, by decide, C9_idempotent exampleWidth "\x1b[0;31mab\x1bc" 2 "" hl⟩

/-! ## Startup -/

theorem finish_ttyOpened (oc : Outcome) (out err : String) (status : Int) :
    finish oc ≠ .exited out err status false := by
  cases oc with
  | reading st => simp [finish]
  | panicked => simp [finish]
  | returned result =>
    by_cases hr : result = "" <;> simp [finish, hr]

/-- C10 (amended). When the input is read without error, the program ends
with the empty-input error and exit status 1 before `tty.Open` is
called, having built no line set, exactly when the buffer has length 0;
for every other buffer, also one of white space only, it does not end
before `tty.Open` is called. -/
theorem C10_empty_buffer (o : Options) (RuneWidth : Char → Nat)
    (plain : String → Int → String → String) (b : String) (ttyError : Option String)
    (events : List Event) :
    (main o RuneWidth plain { stdin := .ok b, ttyError := ttyError, events := events }
        = .exited "" "no buffer to work with was available\n" 1 false ↔ b.data.length = 0) ∧
    (∀ out err status,
      main o RuneWidth plain { stdin := .ok b, ttyError := ttyError, events := events }
        = .exited out err status false → b.data.length = 0) := by
  have hne : b.data.length ≠ 0 → ∀ out err status,
      main o RuneWidth plain { stdin := .ok b, ttyError := ttyError, events := events }
        ≠ .exited out err status false := by
    intro hb out err status
    unfold main
    simp only [hb, if_false]
    cases ttyError with
    | some e => simp
    | none => exact finish_ttyOpened _ out err status
  refine ⟨⟨?_, ?_⟩, ?_⟩
  · intro h
    by_contra hb
    exact hne hb _ _ _ h
  · intro hb
    unfold main
    simp only [hb, if_true]
  · intro out err status h
    by_contra hb
    exact hne hb _ _ _ h

/-- The buffer `"\n"` holds no data after trimming, yet the program builds
the line set of one empty line and goes on to the loop, where it reads
keys. -/
theorem C10_counterexample :
    trimSpace "\n".data = [] ∧
    main exampleOptions exampleWidth (truncateAnsi exampleWidth)
      { stdin := .ok "\n", ttyError := none, events := [] } = .reading (initNav [""]) := by
  decide

/-- C10 (amended) at the empty buffer. -/
theorem C10_witness :
    main exampleOptions exampleWidth (truncateAnsi exampleWidth)
      { stdin := .ok "", ttyError := none, events := [exampleKey 'j'] }
      = .exited "" "no buffer to work with was available\n" 1 false :=
  (C10_empty_buffer exampleOptions exampleWidth (truncateAnsi exampleWidth) "" none
    [exampleKey 'j']).1.mpr (by decide)


/-! ## Keys -/

/-- A rune outside the key bindings leaves the state as it is. -/
theorem keyStep_other (lines : List String) (h : Int) (st : Nav) (r : Char)
    (hd : ¬ isDownKey r) (hu : ¬ isUpKey r) (he : r ≠ Char.ofNat 13) (hc : r ≠ Char.ofNat 27) :
    keyStep lines h st r = .next st := by
  have hd1 : ¬ (r = '\t' ∨ r = 'j' ∨ r = Char.ofNat 0x0E) := hd
  have hu1 : ¬ (r = 'k' ∨ r = Char.ofNat 0x10) := hu
  unfold keyStep
  rw [if_neg hd1, if_neg hu1, if_neg he, if_neg hc]

theorem keyStep_enter (lines : List String) (h : Int) (st : Nav) :
    keyStep lines h st (Char.ofNat 13) =
      match getIdx lines st.row with
      | some line => .confirm line
      | none => .fault := by
  unfold keyStep
  rw [if_neg (by decide), if_neg (by decide), if_pos rfl]

theorem keyStep_escape (lines : List String) (h : Int) (st : Nav) :
    keyStep lines h st (Char.ofNat 27) = .cancel := by
  unfold keyStep
  rw [if_neg (by decide), if_neg (by decide), if_neg (by decide), if_pos rfl]

/-- A key other than Enter and Escape keeps the loop running, inside the
line set. -/
theorem keyStep_running (lines : List String) (h : Int) (st : Nav) (r : Char)
    (hst : NavOK lines.length st) (he : r ≠ Char.ofNat 13) (hc : r ≠ Char.ofNat 27) :
    ∃ st1, keyStep lines h st r = .next st1 ∧ NavOK lines.length st1 := by
  by_cases hd : isDownKey r
  · obtain ⟨st1, hm, hok, _⟩ := moveDown_ok lines.length h st hst
    exact ⟨st1, by rw [keyStep_down _ _ _ _ hd, hm], hok⟩
  · by_cases hu : isUpKey r
    · obtain ⟨st1, hm, hok, _⟩ := moveUp_ok lines.length h st hst
      exact ⟨st1, by rw [keyStep_up _ _ _ _ hu, hm], hok⟩
    · exact ⟨st, keyStep_other lines h st r hd hu he hc, hst⟩

theorem pass_running (o : Options) (trunc : String → Int → String → String)
    (lines : List String) (ev : Event) (st : Nav) (hst : NavOK lines.length st)
    (he : ev.key ≠ Char.ofNat 13) (hc : ev.key ≠ Char.ofNat 27) :
    ∃ st1, pass o trunc lines ev st = .next st1 ∧ NavOK lines.length st1 := by
  obtain ⟨ws, n, d1, hr, hl⟩ := renderPass_ok o trunc lines (geometry ev.size).1
    (geometry ev.size).2 st hst
  obtain ⟨st1, hk, hok⟩ := keyStep_running lines (geometry ev.size).2 { st with dirty := d1 }
    ev.key ⟨hl, hst.2.1, hst.2.2.1, hst.2.2.2⟩ he hc
  refine ⟨st1, ?_, hok⟩
  unfold pass
  simp only [hr]
  exact hk

theorem pass_escape (o : Options) (trunc : String → Int → String → String)
    (lines : List String) (size : Option (Int × Int)) (st : Nav)
    (hst : NavOK lines.length st) :
    pass o trunc lines { size := size, key := Char.ofNat 27 } st = .cancel := by
  obtain ⟨ws, n, d1, hr, _⟩ := renderPass_ok o trunc lines (geometry size).1
    (geometry size).2 st hst
  unfold pass
  simp only [hr]
  exact keyStep_escape _ _ _

/-- Inside the line set no pass faults on an index. -/
theorem pass_no_fault (o : Options) (trunc : String → Int → String → String)
    (lines : List String) (ev : Event) (st : Nav) (hst : NavOK lines.length st) :
    pass o trunc lines ev st ≠ .fault := by
  by_cases he : ev.key = Char.ofNat 13
  · obtain ⟨line, _, hp⟩ := pass_enter o trunc lines ev.size st hst
    have hev : ev = { size := ev.size, key := Char.ofNat 13 } := by
      cases ev; simp only [Event.mk.injEq, true_and]; exact he
    rw [hev, hp]; simp
  · by_cases hc : ev.key = Char.ofNat 27
    · have hev : ev = { size := ev.size, key := Char.ofNat 27 } := by
        cases ev; simp only [Event.mk.injEq, true_and]; exact hc
      rw [hev, pass_escape o trunc lines ev.size st hst]; simp
    · obtain ⟨st1, hp, _⟩ := pass_running o trunc lines ev st hst he hc
      rw [hp]; simp

theorem session_no_panic (o : Options) (trunc : String → Int → String → String)
    (lines : List String) :
    ∀ (evs : List Event) (st : Nav), NavOK lines.length st →
      session o trunc lines evs st ≠ .panicked := by
  intro evs
  induction evs with
  | nil => intro st _; simp [session]
  | cons ev evs ih =>
    intro st hst
    simp only [session]
    cases hp : pass o trunc lines ev st with
    | next st1 => exact ih st1 (pass_next_ok o trunc lines ev st st1 hst hp)
    | confirm line => simp
    | cancel => simp
    | fault => exact absurd hp (pass_no_fault o trunc lines ev st hst)

theorem session_running (o : Options) (trunc : String → Int → String → String)
    (lines : List String) :
    ∀ (evs : List Event) (st : Nav), NavOK lines.length st →
      (∀ ev ∈ evs, ev.key ≠ Char.ofNat 13 ∧ ev.key ≠ Char.ofNat 27) →
      ∃ st1, session o trunc lines evs st = .reading st1 ∧ NavOK lines.length st1 := by
  intro evs
  induction evs with
  | nil => intro st hst _; exact ⟨st, rfl, hst⟩
  | cons ev evs ih =>
    intro st hst hk
    obtain ⟨hk1, hk2⟩ := hk ev (List.mem_cons_self _ _)
    obtain ⟨st1, hp, hok⟩ := pass_running o trunc lines ev st hst hk1 hk2
    obtain ⟨st2, hs, hok2⟩ := ih st1 hok (fun e he => hk e (List.mem_cons_of_mem _ he))
    exact ⟨st2, by simp only [session, hp]; exact hs, hok2⟩

/-- C11. After any finite sequence of keys other than Enter and Escape,
at any terminal sizes, Escape ends the session with nothing written to
standard output and exit status 1. -/
theorem C11_cancellation (o : Options) (trunc : String → Int → String → String)
    (lines : List String) (evs : List Event) (size : Option (Int × Int))
    (hN : 1 ≤ lines.length)
    (hk : ∀ ev ∈ evs, ev.key ≠ Char.ofNat 13 ∧ ev.key ≠ Char.ofNat 27) :
    finish (session o trunc lines (evs ++ [{ size := size, key := Char.ofNat 27 }])
      (initNav lines)) = .exited "" "" 1 true := by
  obtain ⟨st, hs, hok⟩ := session_running o trunc lines evs (initNav lines)
    (navOK_init lines hN) hk
  rw [session_append o trunc lines _ evs _ st hs]
  simp only [session, pass_escape o trunc lines size st hok]
  rfl

/-- C11 at the lines one, two and an immediate Escape. -/
theorem C11_witness :
    finish (session exampleOptions (truncateAnsi exampleWidth) ["one", "two"]
      ([] ++ [{ size := some (80, 25), key := Char.ofNat 27 }]) (initNav ["one", "two"]))
      = .exited "" "" 1 true :=
  C11_cancellation exampleOptions (truncateAnsi exampleWidth) ["one", "two"] [] (some (80, 25))
    (by decide) (by simp)

/-- C17. Tab, `j` and Ctrl-N perform the same move-down transition, `k`
and Ctrl-P the same move-up transition, Enter confirms with `lines[row]`,
Escape cancels, and every other rune leaves `row`, `off` and every dirty
flag as they are and keeps the loop running. -/
theorem C17_key_bindings (lines : List String) (h : Int) (st : Nav) (r : Char)
    (line : String) (hline : getIdx lines st.row = some line)
    (hd : r ≠ '\t' ∧ r ≠ 'j' ∧ r ≠ Char.ofNat 0x0E) (hu : r ≠ 'k' ∧ r ≠ Char.ofNat 0x10)
    (he : r ≠ Char.ofNat 13) (hc : r ≠ Char.ofNat 27) :
    (keyStep lines h st '\t' = keyStep lines h st 'j' ∧
      keyStep lines h st (Char.ofNat 0x0E) = keyStep lines h st 'j' ∧
      keyStep lines h st 'j' =
        match moveDown lines.length h st with
        | some st1 => .next st1
        | none => .fault) ∧
    (keyStep lines h st (Char.ofNat 0x10) = keyStep lines h st 'k' ∧
      keyStep lines h st 'k' =
        match moveUp st with
        | some st1 => .next st1
        | none => .fault) ∧
    keyStep lines h st (Char.ofNat 13) = .confirm line ∧
    keyStep lines h st (Char.ofNat 27) = .cancel ∧
    keyStep lines h st r = .next st := by
  refine ⟨⟨?_, ?_, ?_⟩, ⟨?_, ?_⟩, ?_, keyStep_escape _ _ _, ?_⟩
  · rw [keyStep_down _ _ _ '\t' (Or.inl rfl), keyStep_down _ _ _ 'j' (Or.inr (Or.inl rfl))]
  · rw [keyStep_down _ _ _ (Char.ofNat 0x0E) (Or.inr (Or.inr rfl)),
      keyStep_down _ _ _ 'j' (Or.inr (Or.inl rfl))]
  · exact keyStep_down _ _ _ 'j' (Or.inr (Or.inl rfl))
  · rw [keyStep_up _ _ _ (Char.ofNat 0x10) (Or.inr rfl), keyStep_up _ _ _ 'k' (Or.inl rfl)]
  · exact keyStep_up _ _ _ 'k' (Or.inl rfl)
  · rw [keyStep_enter, hline]
  · apply keyStep_other _ _ _ _ _ _ he hc
    · rintro (h1 | h1 | h1)
      · exact hd.1 h1
      · exact hd.2.1 h1
      · exact hd.2.2 h1
    · rintro (h1 | h1)
      · exact hu.1 h1
      · exact hu.2 h1

/-- C17 at the rune `x` in the second of three lines. -/
theorem C17_witness :
    keyStep ["a", "b", "c"] 25 { off := 0, row := 1, dirty := [false, true, false] } 'x'
      = .next { off := 0, row := 1, dirty := [false, true, false] } ∧
    keyStep ["a", "b", "c"] 25 { off := 0, row := 1, dirty := [false, true, false] }
      (Char.ofNat 13) = .confirm "b" :=
  have h := C17_key_bindings ["a", "b", "c"] 25
    { off := 0, row := 1, dirty := [false, true, false] } 'x' "b" (by decide) (by decide)
    (by decide) (by decide) (by decide)
  ⟨h.2.2.2.2, h.2.2.1⟩

/-- C19. For every line set of `N ≥ 1` lines, every finite sequence of key
runes and every sequence of terminal sizes, of any integers, the loop never
panics on an index, and every state it reaches has `0 ≤ off ≤ row ≤ N-1`
and one flag per line, so that no further pass faults either. -/
theorem C19_index_safety (o : Options) (trunc : String → Int → String → String)
    (lines : List String) (evs : List Event) (hN : 1 ≤ lines.length) :
    session o trunc lines evs (initNav lines) ≠ .panicked ∧
    ∀ st, session o trunc lines evs (initNav lines) = .reading st →
      0 ≤ st.off ∧ st.off ≤ st.row ∧ st.row ≤ (lines.length : Int) - 1 ∧
      st.dirty.length = lines.length ∧
      ∀ ev, pass o trunc lines ev st ≠ .fault := by
  refine ⟨session_no_panic o trunc lines evs _ (navOK_init lines hN), ?_⟩
  intro st hs
  have hok := session_reading_ok o trunc lines evs _ st (navOK_init lines hN) hs
  obtain ⟨h1, h2, h3, h4⟩ := hok
  exact ⟨h2, h3, by omega, h1, fun ev => pass_no_fault o trunc lines ev st ⟨h1, h2, h3, h4⟩⟩

/-- C19 at three lines with heights 0 and -3 and a failed size query. -/
theorem C19_witness :
    session exampleOptions (truncateAnsi exampleWidth) ["a", "b", "c"]
      [{ size := some (80, 0), key := 'j' }, { size := some (-1, -3), key := 'j' },
       { size := none, key := 'k' }] (initNav ["a", "b", "c"]) ≠ .panicked :=
  (C19_index_safety exampleOptions (truncateAnsi exampleWidth) ["a", "b", "c"]
    [{ size := some (80, 0), key := 'j' }, { size := some (-1, -3), key := 'j' },
     { size := none, key := 'k' }] (by decide)).1


/-! ## The window -/

theorem moveDown_window (n : Nat) (h : Int) (st st1 : Nav) (hst : NavOK n st)
    (hw : InWindow n h st) (hm : moveDown n h st = some st1) : InWindow n h st1 := by
  obtain ⟨hlen, h0, h1, h2⟩ := hst
  obtain ⟨hw1, hw2⟩ := hw
  by_cases hr : st.row < (n : Int) - 1
  · rw [moveDown_eq n h st hlen (by omega) hr] at hm
    split at hm
    · cases hm
      refine ⟨?_, ?_⟩
      · show st.row + 1 ≤ st.off + 1 + h - 1
        omega
      · show st.off + 1 ≤ max 0 ((n : Int) - h)
        omega
    · cases hm
      refine ⟨?_, hw2⟩
      show st.row + 1 ≤ st.off + h - 1
      omega
  · simp only [moveDown, hr, if_false, Option.some.injEq] at hm
    subst hm; exact ⟨hw1, hw2⟩

theorem moveUp_window (n : Nat) (h : Int) (st st1 : Nav) (hst : NavOK n st)
    (hw : InWindow n h st) (hm : moveUp st = some st1) : InWindow n h st1 := by
  obtain ⟨hlen, h0, h1, h2⟩ := hst
  obtain ⟨hw1, hw2⟩ := hw
  by_cases hr : 0 < st.row
  · rw [moveUp_eq n st hlen hr h2] at hm
    split at hm
    · cases hm
      refine ⟨?_, ?_⟩
      · show st.row - 1 ≤ st.off - 1 + h - 1
        omega
      · show st.off - 1 ≤ max 0 ((n : Int) - h)
        omega
    · cases hm
      refine ⟨?_, hw2⟩
      show st.row - 1 ≤ st.off + h - 1
      omega
  · have hr1 : ¬ st.row > 0 := by omega
    simp only [moveUp, hr1, if_false, Option.some.injEq] at hm
    subst hm; exact ⟨hw1, hw2⟩

/-- A key that keeps the loop running keeps the cursor inside the window
of the height it was read at. -/
theorem keyStep_next_window (lines : List String) (h : Int) (st st1 : Nav) (r : Char)
    (hst : NavOK lines.length st) (hw : InWindow lines.length h st)
    (hs : keyStep lines h st r = .next st1) : InWindow lines.length h st1 := by
  unfold keyStep at hs
  split at hs
  · cases hm : moveDown lines.length h st with
    | none => rw [hm] at hs; cases hs
    | some st2 =>
      rw [hm] at hs; cases hs
      exact moveDown_window lines.length h st st1 hst hw hm
  · split at hs
    · cases hm : moveUp st with
      | none => rw [hm] at hs; cases hs
      | some st2 =>
        rw [hm] at hs; cases hs
        exact moveUp_window lines.length h st st1 hst hw hm
    · split at hs
      · split at hs <;> cases hs
      · split at hs
        · cases hs
        · cases hs; exact hw

theorem pass_next_window (o : Options) (trunc : String → Int → String → String)
    (lines : List String) (ev : Event) (st st1 : Nav)
    (hst : NavOK lines.length st)
    (hw : InWindow lines.length (geometry ev.size).2 st)
    (hp : pass o trunc lines ev st = .next st1) :
    InWindow lines.length (geometry ev.size).2 st1 := by
  obtain ⟨ws, n, d1, hr, hl⟩ := renderPass_ok o trunc lines (geometry ev.size).1
    (geometry ev.size).2 st hst
  unfold pass at hp
  simp only [hr] at hp
  exact keyStep_next_window lines _ { st with dirty := d1 } st1 ev.key
    ⟨hl, hst.2.1, hst.2.2.1, hst.2.2.2⟩ hw hp

/-- With heights that start at `hprev ≥ 1` and never decrease, a cursor
that is visible at height `hprev` is visible at the height of the last
pass. -/
theorem session_visible (o : Options) (trunc : String → Int → String → String)
    (lines : List String) :
    ∀ (evs : List Event) (st st1 : Nav) (hprev : Int), NavOK lines.length st →
      1 ≤ hprev → st.row ≤ st.off + hprev - 1 →
      List.Chain (fun a b => a ≤ b) hprev (heights evs) →
      session o trunc lines evs st = .reading st1 →
      st1.row ≤ st1.off + ((heights evs).getLast?.getD hprev) - 1 := by
  intro evs
  induction evs with
  | nil =>
    intro st st1 hprev _ _ hb _ hs
    simp only [session, Outcome.reading.injEq] at hs
    subst hs
    simpa [heights] using hb
  | cons ev evs ih =>
    intro st st1 hprev hst hh hb hch hs
    simp only [heights, List.map_cons, List.chain_cons] at hch
    obtain ⟨hle, hch1⟩ := hch
    simp only [session] at hs
    cases hp : pass o trunc lines ev st with
    | next st2 =>
      rw [hp] at hs
      have hok := pass_next_ok o trunc lines ev st st2 hst hp
      obtain ⟨ws, n, d1, hr, hl⟩ := renderPass_ok o trunc lines (geometry ev.size).1
        (geometry ev.size).2 st hst
      have hk : keyStep lines (geometry ev.size).2 { st with dirty := d1 } ev.key = .next st2 := by
        unfold pass at hp; simp only [hr] at hp; exact hp
      have hb2 : st2.row ≤ st2.off + (geometry ev.size).2 - 1 := by
        have hst' : NavOK lines.length { st with dirty := d1 } :=
          ⟨hl, hst.2.1, hst.2.2.1, hst.2.2.2⟩
        by_cases hd : isDownKey ev.key
        · obtain ⟨st3, hm, _, hbb⟩ := moveDown_ok lines.length (geometry ev.size).2 _ hst'
          rw [keyStep_down _ _ _ _ hd, hm] at hk
          cases hk
          exact hbb (by omega) (by show st.row ≤ st.off + (geometry ev.size).2 - 1; omega)
        · by_cases hu : isUpKey ev.key
          · obtain ⟨st3, hm, _, hbb⟩ := moveUp_ok lines.length (geometry ev.size).2 _ hst'
            rw [keyStep_up _ _ _ _ hu, hm] at hk
            cases hk
            exact hbb (by omega) (by show st.row ≤ st.off + (geometry ev.size).2 - 1; omega)
          · by_cases he : ev.key = Char.ofNat 13
            · rw [he, keyStep_enter] at hk
              split at hk <;> cases hk
            · by_cases hc : ev.key = Char.ofNat 27
              · rw [hc, keyStep_escape] at hk; cases hk
              · rw [keyStep_other _ _ _ _ hd hu he hc] at hk
                cases hk
                show st.row ≤ st.off + (geometry ev.size).2 - 1
                omega
      have := ih st2 st1 (geometry ev.size).2 hok (by omega) hb2 hch1 hs
      simpa [heights, List.getLast?_cons] using this
    | confirm line => rw [hp] at hs; cases hs
    | cancel => rw [hp] at hs; cases hs
    | fault => rw [hp] at hs; cases hs

/-- C12 (amended). After every transition `0 ≤ off ≤ row ≤ N - 1`, for
every sequence of heights and keys; and when every pass gets a height
`h_i ≥ 1` and the heights never decrease from one pass to the next, then
after every transition also `row ≤ off + h_i - 1` for the height `h_i` of
that pass. -/
theorem C12_visible_nondecreasing (o : Options) (trunc : String → Int → String → String)
    (lines : List String) (evs : List Event) (ev : Event) (st : Nav)
    (hN : 1 ≤ lines.length)
    (hs : session o trunc lines (evs ++ [ev]) (initNav lines) = .reading st) :
    (0 ≤ st.off ∧ st.off ≤ st.row ∧ st.row ≤ (lines.length : Int) - 1) ∧
    (List.Chain (fun a b => a ≤ b) 1 (heights (evs ++ [ev])) →
      st.row ≤ st.off + (geometry ev.size).2 - 1) := by
  have hok := session_reading_ok o trunc lines _ _ st (navOK_init lines hN) hs
  obtain ⟨_, h2, h3, h4⟩ := hok
  refine ⟨⟨h2, h3, by omega⟩, ?_⟩
  intro hch
  have hv := session_visible o trunc lines (evs ++ [ev]) (initNav lines) st 1
    (navOK_init lines hN) (le_refl _) (by simp [initNav]) hch hs
  have hlast : (heights (evs ++ [ev])).getLast?.getD 1 = (geometry ev.size).2 := by
    simp [heights]
  rw [hlast] at hv
  exact hv

/-- Six lines: three move-downs at height 10, then the terminal shrinks to
height 2 and a fourth move-down leaves `row = 4` and `off = 1`, outside the
window of height 2. -/
theorem C12_counterexample :
    session exampleOptions (truncateAnsi exampleWidth) ["a", "b", "c", "d", "e", "f"]
      [{ size := some (80, 10), key := 'j' }, { size := some (80, 10), key := 'j' },
       { size := some (80, 10), key := 'j' }, { size := some (80, 2), key := 'j' }]
      (initNav ["a", "b", "c", "d", "e", "f"])
      = .reading { off := 1, row := 4, dirty := [true, true, true, true, true, true] } ∧
    ¬ ((4 : Int) ≤ 1 + 2 - 1) := by
  decide

/-- C12 (amended) at six lines with heights 10, 10, 10, 2, where only the
bounds of the line set hold, and at three lines with heights 2 then 3, where
the cursor stays visible. -/
theorem C12_witness :
    ((0 : Int) ≤ 1 ∧ (1 : Int) ≤ 4 ∧
      (4 : Int) ≤ ((["a", "b", "c", "d", "e", "f"] : List String).length : Int) - 1) ∧
    (session exampleOptions (truncateAnsi exampleWidth) ["a", "b", "c"]
        ([{ size := some (80, 2), key := 'j' }] ++ [{ size := some (80, 3), key := 'j' }])
        (initNav ["a", "b", "c"])
      = .reading { off := 0, row := 2, dirty := [false, true, true] } ∧
     (2 : Int) ≤ 0 + (geometry (some (80, 3))).2 - 1) :=
  ⟨(C12_visible_nondecreasing exampleOptions (truncateAnsi exampleWidth)
      ["a", "b", "c", "d", "e", "f"]
      [{ size := some (80, 10), key := 'j' }, { size := some (80, 10), key := 'j' },
       { size := some (80, 10), key := 'j' }] { size := some (80, 2), key := 'j' }
      { off := 1, row := 4, dirty := [true, true, true, true, true, true] }
      (by decide) (by decide)).1,
   by decide,
   (C12_visible_nondecreasing exampleOptions (truncateAnsi exampleWidth) ["a", "b", "c"]
      [{ size := some (80, 2), key := 'j' }] { size := some (80, 3), key := 'j' }
      { off := 0, row := 2, dirty := [false, true, true] } (by decide) (by decide)).2
      (List.Chain.cons (by decide) (List.Chain.cons (by decide) List.Chain.nil))⟩

/-! ## The rows of a pass -/

/-- A render pass with `h ≥ 1` in a state with `0 ≤ off ≤ N`: it visits
`min(h, N - off)` lines, clears their flags and leaves the other flags. -/
theorem renderPass_rows (o : Options) (trunc : String → Int → String → String)
    (lines : List String) (w h : Int) (st : Nav)
    (hlen : st.dirty.length = lines.length) (h0 : 0 ≤ st.off)
    (h1 : st.off ≤ (lines.length : Int)) (hh : 1 ≤ h) :
    ∃ ws d1,
      renderPass o trunc lines w h st = some (ws, min h ((lines.length : Int) - st.off), d1) ∧
      d1.length = st.dirty.length ∧
      ∀ idx, getIdx d1 idx =
        if st.off ≤ idx ∧ idx < st.off + min h ((lines.length : Int) - st.off) then some false
        else getIdx st.dirty idx := by
  have hs : sliceFrom lines st.off = some (lines.drop st.off.toNat) := by
    simp [sliceFrom, h0, h1]
  have hb : st.off + (0 : Int) + ((lines.drop st.off.toNat).length : Int) ≤ st.dirty.length := by
    simp only [List.length_drop, hlen]; omega
  obtain ⟨ws, n1, d1, hr, hdl⟩ := renderLoop_ok o trunc w h st.row st.off
    (lines.drop st.off.toNat) 0 0 st.dirty (by omega) hb
  obtain ⟨hn1, _⟩ := renderLoop_count o trunc w h st.row st.off _ 0 0 st.dirty ws n1 d1
    (by omega) hr
  obtain ⟨_, _, _, _, he⟩ := renderLoop_window o trunc w h st.row st.off _ 0 0 st.dirty
    ws n1 d1 (by omega) hb hr
  have hlen2 : ((lines.drop st.off.toNat).length : Int) = (lines.length : Int) - st.off := by
    simp only [List.length_drop]; omega
  rw [hlen2] at hn1
  simp only [sub_zero, zero_add] at hn1
  simp only [add_zero, sub_zero] at he
  subst hn1
  exact ⟨ws ++ [cursorUp (min h ((lines.length : Int) - st.off))], d1,
    by simp [renderPass, hs, hr], hdl, he⟩

/-- C18. For `N` lines, `0 ≤ off < N` and `h ≥ 1`, a render pass visits
`min(h, N - off)` rows, the lines with index in `[off, min(N, off + h))`;
after the pass the flag of each of them is false and every other flag is
as it was. -/
theorem C18_render_window (o : Options) (trunc : String → Int → String → String)
    (lines : List String) (w h : Int) (st : Nav)
    (hlen : st.dirty.length = lines.length) (h0 : 0 ≤ st.off)
    (h1 : st.off < (lines.length : Int)) (hh : 1 ≤ h) :
    ∃ ws d1,
      renderPass o trunc lines w h st = some (ws, min h ((lines.length : Int) - st.off), d1) ∧
      d1.length = lines.length ∧
      (∀ i, st.off ≤ i → i < min (lines.length : Int) (st.off + h) → getIdx d1 i = some false) ∧
      (∀ j, ¬ (st.off ≤ j ∧ j < min (lines.length : Int) (st.off + h)) →
        getIdx d1 j = getIdx st.dirty j) := by
  obtain ⟨ws, d1, hr, hdl, hd⟩ := renderPass_rows o trunc lines w h st hlen h0 (by omega) hh
  refine ⟨ws, d1, hr, by omega, ?_, ?_⟩
  · intro i hi0 hi1
    rw [hd i, if_pos (by omega)]
  · intro j hj
    rw [hd j, if_neg (by omega)]

/-- C18 at five lines, `off = 1` and height 2: the flags of lines 1 and 2 are
cleared. -/
theorem C18_witness :
    ∃ ws d1,
      renderPass exampleOptions (truncateAnsi exampleWidth) ["a", "b", "c", "d", "e"] 80 2
          { off := 1, row := 2, dirty := [true, true, true, true, true] }
        = some (ws, min 2 (((["a", "b", "c", "d", "e"] : List String).length : Int) - 1), d1) ∧
      d1 = [true, false, false, true, true] := by
  obtain ⟨ws, d1, hr, _, _, _⟩ := C18_render_window exampleOptions (truncateAnsi exampleWidth)
    ["a", "b", "c", "d", "e"] 80 2 { off := 1, row := 2, dirty := [true, true, true, true, true] }
    (by decide) (by decide) (by decide) (by decide)
  have hval : renderPass exampleOptions (truncateAnsi exampleWidth) ["a", "b", "c", "d", "e"] 80 2
      { off := 1, row := 2, dirty := [true, true, true, true, true] }
      = some (["\x1b[0K", "b\x1b[0K\r", "\n", "\x1b[0K", "\x1b[30;47mc\x1b[0m\r", "\x1b[2A"],
          2, [true, false, false, true, true]) := by decide
  rw [hval] at hr
  simp only [Option.some.injEq, Prod.mk.injEq] at hr
  exact ⟨ws, d1, by rw [hval, hr.1, ← hr.2.2]; rfl, hr.2.2.symm⟩

/-! ## The end of the line set -/

theorem session_window_fixed (o : Options) (trunc : String → Int → String → String)
    (lines : List String) (w h : Int) :
    ∀ (keys : List Char) (st : Nav), (∀ k ∈ keys, isDownKey k ∨ isUpKey k) →
      NavOK lines.length st → InWindow lines.length h st →
      ∃ st1, session o trunc lines (fixedSize w h keys) st = .reading st1 ∧
        NavOK lines.length st1 ∧ InWindow lines.length h st1 := by
  intro keys
  induction keys with
  | nil => intro st _ hst hw; exact ⟨st, rfl, hst, hw⟩
  | cons k ks ih =>
    intro st hk hst hw
    obtain ⟨st1, hp, hok, _⟩ := pass_move o trunc lines { size := some (w, h), key := k } st hst
      (hk k (List.mem_cons_self _ _))
    have hw1 := pass_next_window o trunc lines { size := some (w, h), key := k } st st1 hst hw hp
    obtain ⟨st2, hs, hok2, hw2⟩ := ih st1 (fun k hk1 => hk k (List.mem_cons_of_mem _ hk1)) hok hw1
    refine ⟨st2, ?_, hok2, hw2⟩
    simp only [fixedSize, List.map_cons, session, hp]
    exact hs

/-- C20. At fixed height `h ≥ 1`, after any finite sequence of move-down
and move-up keys from the initial state `off ≤ max(0, N - h)`; and when
`N ≥ h` the window `[off, off + h)` lies inside the line set and the next
render pass visits exactly `h` rows. -/
theorem C20_no_scroll_past_end (o : Options) (trunc : String → Int → String → String)
    (lines : List String) (w h : Int) (keys : List Char)
    (hN : 1 ≤ lines.length) (hh : 1 ≤ h) (hk : ∀ k ∈ keys, isDownKey k ∨ isUpKey k) :
    ∃ st, session o trunc lines (fixedSize w h keys) (initNav lines) = .reading st ∧
      st.off ≤ max 0 ((lines.length : Int) - h) ∧
      (h ≤ (lines.length : Int) →
        0 ≤ st.off ∧ st.off + h ≤ (lines.length : Int) ∧
        ∃ ws d1, renderPass o trunc lines w h st = some (ws, h, d1)) := by
  obtain ⟨st, hs, hok, hw⟩ := session_window_fixed o trunc lines w h keys (initNav lines) hk
    (navOK_init lines hN) (by
      refine ⟨?_, ?_⟩
      · show (0 : Int) ≤ 0 + h - 1
        omega
      · show (0 : Int) ≤ max 0 ((lines.length : Int) - h)
        omega)
  refine ⟨st, hs, hw.2, ?_⟩
  intro hle
  obtain ⟨hlen, h0, h1, h2⟩ := hok
  have hoff : st.off + h ≤ (lines.length : Int) := by
    have := hw.2; omega
  obtain ⟨ws, d1, hr, _, _⟩ := renderPass_rows o trunc lines w h st hlen h0 (by omega) hh
  have hmin : min h ((lines.length : Int) - st.off) = h := by omega
  rw [hmin] at hr
  exact ⟨h0, hoff, ws, d1, hr⟩

/-- C20 at five lines, height 2 and six move-downs: `off` stops at 3. -/
theorem C20_witness :
    ∃ st, session exampleOptions (truncateAnsi exampleWidth) ["a", "b", "c", "d", "e"]
        (fixedSize 80 2 ['j', 'j', 'j', 'j', 'j', 'j']) (initNav ["a", "b", "c", "d", "e"])
        = .reading st ∧
      st.off ≤ max 0 (((["a", "b", "c", "d", "e"] : List String).length : Int) - 2) := by
  obtain ⟨st, h1, h2, _⟩ := C20_no_scroll_past_end exampleOptions (truncateAnsi exampleWidth)
    ["a", "b", "c", "d", "e"] 80 2 ['j', 'j', 'j', 'j', 'j', 'j'] (by decide) (by decide)
    (by decide)
  exact ⟨st, h1, h2⟩


/-! ## Lines without escape sequences -/

theorem displayWidth_cons (RuneWidth : Char → Nat) (a : Char) (l : List Char) :
    displayWidth RuneWidth (a :: l) = RuneWidth a + displayWidth RuneWidth l := by
  simp [displayWidth]

/-- On runes without the escape character the loop keeps the longest
prefix that fits. -/
theorem truncFrom_prefix (RuneWidth : Char → Nat) (w : Int) :
    ∀ (r : List Char) (x : Int), ESC ∉ r →
      truncFrom RuneWidth w r x <+: r ∧
      (x ≤ w → x + (displayWidth RuneWidth (truncFrom RuneWidth w r x) : Int) ≤ w) ∧
      ∀ p, p <+: r → x + (displayWidth RuneWidth p : Int) ≤ w →
        p <+: truncFrom RuneWidth w r x := by
  intro r
  induction r with
  | nil =>
    intro x _
    rw [truncFrom_nil]
    refine ⟨List.prefix_refl _, fun hx => by simpa [displayWidth] using hx, ?_⟩
    intro p hp _
    exact hp
  | cons c rest ih =>
    intro x hno
    have hc : c ≠ ESC := fun h => hno (h ▸ List.mem_cons_self _ _)
    have hrest : ESC ∉ rest := fun h => hno (List.mem_cons_of_mem _ h)
    rw [truncFrom_rune RuneWidth w c rest x (fun h => hc h.1)]
    by_cases hfit : x + (RuneWidth c : Int) > w
    · rw [if_pos hfit]
      refine ⟨List.nil_prefix, fun hx => by simpa [displayWidth] using hx, ?_⟩
      intro p hp hpw
      cases p with
      | nil => exact List.prefix_refl _
      | cons a p1 =>
        rw [List.cons_prefix_cons] at hp
        obtain ⟨rfl, _⟩ := hp
        rw [displayWidth_cons, Nat.cast_add] at hpw
        omega
    · rw [if_neg hfit]
      obtain ⟨h1, h2, h3⟩ := ih (x + (RuneWidth c : Int)) hrest
      refine ⟨?_, ?_, ?_⟩
      · rw [List.cons_prefix_cons]; exact ⟨rfl, h1⟩
      · intro _
        have := h2 (by omega)
        rw [displayWidth_cons, Nat.cast_add]
        omega
      · intro p hp hpw
        cases p with
        | nil => exact List.nil_prefix
        | cons a p1 =>
          rw [List.cons_prefix_cons] at hp
          obtain ⟨rfl, hp1⟩ := hp
          rw [List.cons_prefix_cons]
          refine ⟨rfl, h3 p1 hp1 ?_⟩
          rw [displayWidth_cons, Nat.cast_add] at hpw
          omega

/-! ## Widths that are not positive -/

/-- At a width `w ≤ 0` the loop appends a rune of the line only when
`w = 0` and the rune has column width 0. -/
theorem truncLoop_nonpositive (RuneWidth : Char → Nat) (w : Int) (hw : w ≤ 0) :
    ∀ (fuel : Nat) (r : List Char) (x : Int), 0 ≤ x →
      ∀ p ∈ truncLoop RuneWidth w fuel r x,
        (∃ s, p = Piece.esc s) ∨ (∃ c, p = Piece.rune c ∧ RuneWidth c = 0 ∧ w = 0) := by
  intro fuel
  induction fuel with
  | zero => intro r x _ p hp; simp [truncLoop] at hp
  | succ fuel ih =>
    intro r x hx p hp
    cases r with
    | nil => simp [truncLoop] at hp
    | cons c rest =>
      rw [truncLoop] at hp
      split at hp
      · simp only [] at hp
        split at hp
        · simp at hp
        · split at hp
          · rw [List.mem_cons] at hp
            rcases hp with rfl | hp
            · exact Or.inl ⟨_, rfl⟩
            · exact ih _ x hx p hp
          · exact ih _ x hx p hp
      · simp only [] at hp
        split at hp
        · simp at hp
        · rename_i hfit
          rw [List.mem_cons] at hp
          rcases hp with rfl | hp
          · exact Or.inr ⟨c, rfl, by omega, by omega⟩
          · exact ih rest _ (by omega) p hp

/-- C14 (amended). For every line and every width `w ≤ 0` the result holds
no rune of positive column width: it is made of rewritten escape sequences
and, at `w = 0` only, of runes of column width 0.  For a line without the
escape character it is the empty string when `w < 0` or when no rune of
the line has column width 0. -/
theorem C14_nonpositive_width (RuneWidth : Char → Nat) (line : String) (w : Int)
    (tail : String) (hw : w ≤ 0) :
    (∀ p ∈ truncPieces RuneWidth line.data w,
      (∃ s, p = Piece.esc s) ∨ (∃ c, p = Piece.rune c ∧ RuneWidth c = 0 ∧ w = 0)) ∧
    (ESC ∉ line.data → (w < 0 ∨ ∀ c ∈ line.data, 0 < RuneWidth c) →
      truncateAnsi RuneWidth line w tail = "") := by
  refine ⟨truncLoop_nonpositive RuneWidth w hw _ _ 0 (le_refl _), ?_⟩
  intro hno hpos
  show String.mk (truncFrom RuneWidth w line.data 0) = ""
  have hnil : truncFrom RuneWidth w line.data 0 = [] := by
    cases hd : line.data with
    | nil => exact truncFrom_nil _ _ _
    | cons c rest =>
      rw [hd] at hno hpos
      have hc : c ≠ ESC := fun h => hno (h ▸ List.mem_cons_self _ _)
      rw [truncFrom_rune RuneWidth w c rest 0 (fun h => hc h.1), if_pos]
      rcases hpos with h | h
      · omega
      · have := h c (List.mem_cons_self _ _)
        omega
  rw [hnil]

/-- At width 0, and at width -1, the red sequence of the line is still
returned. -/
theorem C14_counterexample :
    truncateAnsi exampleWidth "\x1b[31mabc" 0 "" = "\x1b[31m" ∧
    truncateAnsi exampleWidth "\x1b[31mabc" (-1) "" = "\x1b[31m" ∧
    truncateAnsi exampleWidth "\x1b[31mabc" (-1) "" ≠ "" := by
  decide

/-- C14 (amended) at the line `abc` and width -1. -/
theorem C14_witness : truncateAnsi exampleWidth "abc" (-1) "" = "" :=
  (C14_nonpositive_width exampleWidth "abc" (-1) "" (by decide)).2 (by decide)
    (Or.inl (by decide))


/-! ## The line set -/

/-- Joining the pieces of `strings.Split` with the separator gives the
string back. -/
theorem joinSep_splitSep (sep : Char) : ∀ l : List Char, joinSep sep (splitSep sep l) = l := by
  intro l
  induction l with
  | nil => rfl
  | cons c cs ih =>
    rw [splitSep]
    cases hs : splitSep sep cs with
    | nil => exact absurd hs (splitSep_ne_nil sep cs)
    | cons p ps =>
      rw [hs] at ih
      split
      · rename_i hc
        rw [joinSep, ih, hc]; rfl
      · cases ps with
        | nil =>
          simp only [joinSep] at ih ⊢
          rw [ih]
        | cons p2 ps2 =>
          simp only [joinSep] at ih ⊢
          rw [← ih]; rfl

/-- What `strings.TrimSpace` removes: white space in front and at the
end, and all of it. -/
theorem trimSpace_spec (s : List Char) :
    ∃ pre suf, s = pre ++ trimSpace s ++ suf ∧
      (∀ c ∈ pre, isSpace c = true) ∧ (∀ c ∈ suf, isSpace c = true) ∧
      (∀ c, (trimSpace s).head? = some c → isSpace c = false) ∧
      (∀ c, (trimSpace s).getLast? = some c → isSpace c = false) := by
  have hmid : s.dropWhile isSpace =
      trimSpace s ++ ((s.dropWhile isSpace).reverse.takeWhile isSpace).reverse := by
    have h := List.takeWhile_append_dropWhile isSpace (s.dropWhile isSpace).reverse
    have h2 := congrArg List.reverse h
    rw [List.reverse_append, List.reverse_reverse] at h2
    exact h2.symm
  have hlast : ∀ c, (trimSpace s).getLast? = some c → isSpace c = false := by
    intro c hc
    unfold trimSpace at hc
    rw [List.getLast?_reverse] at hc
    have h := List.head?_dropWhile_not isSpace (s.dropWhile isSpace).reverse
    rw [hc] at h
    simpa using h
  refine ⟨s.takeWhile isSpace, ((s.dropWhile isSpace).reverse.takeWhile isSpace).reverse,
    ?_, ?_, ?_, ?_, hlast⟩
  · rw [List.append_assoc, ← hmid, List.takeWhile_append_dropWhile]
  · intro c hc
    exact (List.mem_takeWhile_imp hc)
  · intro c hc
    rw [List.mem_reverse] at hc
    exact (List.mem_takeWhile_imp hc)
  · intro c hc
    have h := List.head?_dropWhile_not isSpace s
    cases ht : trimSpace s with
    | nil => rw [ht] at hc; cases hc
    | cons a t =>
      rw [ht] at hc hmid
      simp only [List.head?_cons, Option.some.injEq] at hc
      subst hc
      rw [hmid] at h
      simpa using h

/-- Splitting what `strings.Join` made of a non-empty list of pieces
without the separator gives the pieces back. -/
theorem splitSep_joinSep (sep : Char) : ∀ ls : List (List Char), ls ≠ [] →
    (∀ l ∈ ls, sep ∉ l) → splitSep sep (joinSep sep ls) = ls := by
  intro ls
  induction ls with
  | nil => intro h; exact absurd rfl h
  | cons k ks ih =>
    intro hne hsep
    have hk : sep ∉ k := hsep k (List.mem_cons_self _ _)
    have hks : ∀ l ∈ ks, sep ∉ l := fun l hl => hsep l (List.mem_cons_of_mem _ hl)
    cases ks with
    | nil =>
      simp only [joinSep]
      clear ih hsep hks hne
      induction k with
      | nil => rfl
      | cons c k ihk =>
        have hc : c ≠ sep := fun h => hk (h ▸ List.mem_cons_self _ _)
        rw [splitSep, if_neg hc, ihk (fun h => hk (List.mem_cons_of_mem _ h))]
    | cons k2 ks2 =>
      have ih2 := ih (by simp) hks
      simp only [joinSep]
      clear ih hsep hks hne
      induction k with
      | nil => rw [List.nil_append, splitSep, if_pos rfl, ih2]
      | cons c k ihk =>
        have hc : c ≠ sep := fun h => hk (h ▸ List.mem_cons_self _ _)
        rw [List.cons_append, splitSep, if_neg hc, ihk (fun h => hk (List.mem_cons_of_mem _ h))]

/-- C15 (amended). The line set is the buffer with the white space in
front and at the end removed, every carriage return deleted, split on
newline: it is not empty, no line holds a newline or a carriage return,
the lines joined with newlines give back exactly the carriage return free
trimmed buffer, and it is the only non-empty list of lines without newline
that does. -/
theorem C15_line_set (b : String) :
    (∃ pre suf, b.data = pre ++ trimSpace b.data ++ suf ∧
      (∀ c ∈ pre, isSpace c = true) ∧ (∀ c ∈ suf, isSpace c = true) ∧
      (∀ c, (trimSpace b.data).head? = some c → isSpace c = false) ∧
      (∀ c, (trimSpace b.data).getLast? = some c → isSpace c = false)) ∧
    splitLines b ≠ [] ∧
    (∀ l ∈ splitLines b, '\n' ∉ l.data ∧ '\r' ∉ l.data) ∧
    joinSep '\n' ((splitLines b).map String.data) =
      (trimSpace b.data).filter (fun c => c ≠ '\r') ∧
    (∀ ls : List String, ls ≠ [] → (∀ l ∈ ls, '\n' ∉ l.data) →
      joinSep '\n' (ls.map String.data) = (trimSpace b.data).filter (fun c => c ≠ '\r') →
      ls = splitLines b) := by
  have hid : (String.mk ∘ String.data) = (id : String → String) := by
    funext l; rfl
  have hid2 : (String.data ∘ String.mk) = (id : List Char → List Char) := by
    funext l; rfl
  refine ⟨trimSpace_spec b.data, ?_, ?_, ?_, ?_⟩
  · unfold splitLines
    intro h
    rw [List.map_eq_nil_iff] at h
    exact splitSep_ne_nil _ _ h
  · intro l hl
    unfold splitLines at hl
    rw [List.mem_map] at hl
    obtain ⟨tok, htok, rfl⟩ := hl
    refine ⟨?_, ?_⟩
    · intro hc
      exact (splitSep_mem '\n' _ tok htok '\n' hc).1 rfl
    · intro hc
      have h := (splitSep_mem '\n' _ tok htok '\r' hc).2
      rw [List.mem_filter] at h
      simpa using h.2
  · unfold splitLines
    rw [List.map_map, hid2, List.map_id, joinSep_splitSep]
  · intro ls hne hnl hjoin
    unfold splitLines
    rw [← hjoin, splitSep_joinSep '\n' (ls.map String.data) (by simpa using hne)
      (by
        intro l hl
        rw [List.mem_map] at hl
        obtain ⟨l0, hl0, rfl⟩ := hl
        exact hnl l0 hl0)]
    rw [List.map_map, hid, List.map_id]

/-- The buffer `"  a\nb"`: the white space in front of the first line is
removed too. -/
theorem C15_counterexample :
    splitLines "  a\nb" = ["a", "b"] ∧ splitLines "  a\nb" ≠ ["  a", "b"] := by
  decide


/-! ## What a dirty line writes -/

/-- Every visited line whose flag is set writes its fill prefix and then
its painted text. -/
theorem renderLoop_paints (o : Options) (trunc : String → Int → String → String)
    (w h row off : Int) :
    ∀ (ls : List String) (i n : Int) (dirty : List Bool) (ws : List String) (n1 : Int)
      (d1 : List Bool), 0 ≤ off + i → off + i + ls.length ≤ dirty.length →
      renderLoop o trunc w h row off ls i n dirty = some (ws, n1, d1) →
      ∀ j line, 0 ≤ j → j < n1 - n → getIdx dirty (off + i + j) = some true →
        getIdx ls j = some line →
        [fillstart o, paintText o row (off + i + j) (trunc (expandTabs line) w "")] <:+: ws := by
  intro ls
  induction ls with
  | nil =>
    intro i n dirty ws n1 d1 _ _ hr j line hj0 hj1 _ _
    simp only [renderLoop, Option.some.injEq, Prod.mk.injEq] at hr
    obtain ⟨_, rfl, _⟩ := hr
    omega
  | cons l rest ih =>
    intro i n dirty ws n1 d1 h0 h1 hr j line hj0 hj1 hflagj hline
    simp only [List.length_cons, Nat.cast_add, Nat.cast_one] at h1
    have hlt : off + i < dirty.length := by omega
    obtain ⟨flag, hflag⟩ := getIdx_eq_some dirty (off + i) h0 hlt
    rw [renderLoop_cons_eq o trunc w h row off l rest i n dirty flag hflag] at hr
    have hclear := getIdx_clear dirty (off + i) flag hflag
    have hzero : j = 0 →
        (if flag = true then
          [fillstart o, paintText o row (off + i) (trunc (expandTabs l) w "")] else []) =
        [fillstart o, paintText o row (off + i + j) (trunc (expandTabs line) w "")] := by
      intro hj
      subst hj
      rw [add_zero, hflag] at hflagj
      rw [getIdx_cons_zero] at hline
      cases hflagj; cases hline
      simp
    split at hr
    · simp only [Option.some.injEq, Prod.mk.injEq] at hr
      obtain ⟨rfl, rfl, rfl⟩ := hr
      have hj : j = 0 := by omega
      rw [hzero hj]
      exact (List.prefix_append _ _).isInfix
    · split at hr
      · cases hr
      · rename_i more n2 d2 hrec
        simp only [Option.some.injEq, Prod.mk.injEq] at hr
        obtain ⟨rfl, rfl, rfl⟩ := hr
        by_cases hj : j = 0
        · rw [hzero hj]
          exact (List.prefix_append _ _).isInfix
        · have hlen1 : (if flag = true then dirty.set (off + i).toNat false else dirty).length
              = dirty.length := by
            cases flag <;> simp
          have hj2 : getIdx (if flag = true then dirty.set (off + i).toNat false else dirty)
              (off + (i + 1) + (j - 1)) = some true := by
            rw [hclear, if_neg (by omega)]
            rw [← hflagj]; congr 1; omega
          have hl2 : getIdx rest (j - 1) = some line := by
            rw [← hline]
            have := getIdx_cons_succ l rest (j - 1) (by omega)
            rw [← this]; congr 1; omega
          have hin := ih (i + 1) (n + 1) _ more n2 d2 (by omega) (by rw [hlen1]; omega) hrec
            (j - 1) line (by omega) (by omega) hj2 hl2
          have hk : off + (i + 1) + (j - 1) = off + i + j := by omega
          rw [hk] at hin
          exact hin.trans ((List.suffix_cons _ _).isInfix.trans
            (List.suffix_append _ _).isInfix)

/-- C16 (amended). In cursor-line mode every write of a render pass before
the cursor-up is a newline, the empty fill prefix or the text of a dirty
visited line; every dirty visited line writes the empty prefix and then,
on the cursor row, `ESC[<fg>;<bg>m`, the truncated text, the fill `ESC[0K`,
the reset `ESC[0m` and a carriage return, and on another row the truncated
text, `ESC[0K` and a carriage return. -/
theorem C16_cursorline_output (o : Options) (trunc : String → Int → String → String)
    (lines : List String) (w h : Int) (st : Nav)
    (hcl : o.cursorline = true)
    (hlen : st.dirty.length = lines.length) (h0 : 0 ≤ st.off)
    (h1 : st.off ≤ (lines.length : Int)) :
    ∃ body n d1, renderPass o trunc lines w h st = some (body ++ [cursorUp n], n, d1) ∧
      (∀ s ∈ body, s = "\n" ∨ s = "" ∨ ∃ idx line, st.off ≤ idx ∧ idx < st.off + n ∧
        getIdx st.dirty idx = some true ∧ getIdx lines idx = some line ∧
        s = if idx = st.row then
              "\x1b[" ++ fg o ++ ";" ++ bg o ++ "m" ++ trunc (expandTabs line) w "" ++
                "\x1b[0K\x1b[0m" ++ "\r"
            else trunc (expandTabs line) w "" ++ "\x1b[0K" ++ "\r") ∧
      (∀ idx line, st.off ≤ idx → idx < st.off + n → getIdx st.dirty idx = some true →
        getIdx lines idx = some line →
        ["", if idx = st.row then
              "\x1b[" ++ fg o ++ ";" ++ bg o ++ "m" ++ trunc (expandTabs line) w "" ++
                "\x1b[0K\x1b[0m" ++ "\r"
            else trunc (expandTabs line) w "" ++ "\x1b[0K" ++ "\r"] <:+: body) := by
  have hs : sliceFrom lines st.off = some (lines.drop st.off.toNat) := by
    simp [sliceFrom, h0, h1]
  have hb : st.off + (0 : Int) + ((lines.drop st.off.toNat).length : Int) ≤ st.dirty.length := by
    simp only [List.length_drop, hlen]; omega
  have hfs : fillstart o = "" := by simp [fillstart, hcl]
  have hpt : ∀ idx text, paintText o st.row idx text =
      if idx = st.row then
        "\x1b[" ++ fg o ++ ";" ++ bg o ++ "m" ++ text ++ "\x1b[0K\x1b[0m" ++ "\r"
      else text ++ "\x1b[0K" ++ "\r" := by
    intro idx text
    simp [paintText, fillend, clearend, hcl]
  obtain ⟨ws, n1, d1, hr, _⟩ := renderLoop_ok o trunc w h st.row st.off
    (lines.drop st.off.toNat) 0 0 st.dirty (by omega) hb
  obtain ⟨_, _, hc, _, _⟩ := renderLoop_window o trunc w h st.row st.off _ 0 0 st.dirty
    ws n1 d1 (by omega) hb hr
  have hp := renderLoop_paints o trunc w h st.row st.off _ 0 0 st.dirty ws n1 d1 (by omega) hb hr
  simp only [add_zero, sub_zero] at hc hp
  refine ⟨ws, n1, d1, by simp [renderPass, hs, hr], ?_, ?_⟩
  · intro s hsm
    rcases hc s hsm with hs1 | ⟨j, line, hj0, hj1, hj2, hj3, hj4⟩
    · exact Or.inl hs1
    · rcases hj4 with hj4 | hj4
      · exact Or.inr (Or.inl (hj4.trans hfs))
      · refine Or.inr (Or.inr ⟨st.off + j, line, by omega, by omega, hj2, ?_, ?_⟩)
        · rw [← getIdx_drop lines st.off j h0 hj0]; exact hj3
        · rw [hj4, hpt]
  · intro idx line hi0 hi1 hd hl
    have hl2 : getIdx (lines.drop st.off.toNat) (idx - st.off) = some line := by
      rw [getIdx_drop lines st.off (idx - st.off) h0 (by omega)]
      rw [← hl]; congr 1; omega
    have hd2 : getIdx st.dirty (st.off + (idx - st.off)) = some true := by
      rw [← hd]; congr 1; omega
    have := hp (idx - st.off) line (by omega) (by omega) hd2 hl2
    have hk : st.off + (idx - st.off) = idx := by omega
    rw [hk, hfs, hpt] at this
    exact this

/-- One line in cursor-line mode: the fill `ESC[0K` is written before the
reset `ESC[0m`, not after it. -/
theorem C16_counterexample :
    renderPass { cursorline := true } (truncateAnsi exampleWidth) ["a"] 80 25 (initNav ["a"])
      = some (["", "\x1b[30;47ma\x1b[0K\x1b[0m\r", "\n", "\x1b[1A"], 1, [false]) ∧
    ("\x1b[30;47ma\x1b[0K\x1b[0m\r" : String) ≠ "\x1b[30;47ma\x1b[0m\x1b[0K\r" := by
  decide

/-- C16 (amended) at one line in cursor-line mode. -/
theorem C16_witness :
    ∃ body n d1,
      renderPass { cursorline := true } (truncateAnsi exampleWidth) ["a"] 80 25 (initNav ["a"])
        = some (body ++ [cursorUp n], n, d1) ∧
      ["", "\x1b[30;47ma\x1b[0K\x1b[0m\r"] <:+: body := by
  obtain ⟨body, n, d1, h1, _, h3⟩ := C16_cursorline_output { cursorline := true }
    (truncateAnsi exampleWidth) ["a"] 80 25 (initNav ["a"]) rfl (by decide) (by decide)
    (by decide)
  have hval : renderPass { cursorline := true } (truncateAnsi exampleWidth) ["a"] 80 25
      (initNav ["a"]) = some (["", "\x1b[30;47ma\x1b[0K\x1b[0m\r", "\n"] ++ [cursorUp 1], 1,
        [false]) := by decide
  have heq := h1.symm.trans hval
  simp only [Option.some.injEq, Prod.mk.injEq] at heq
  obtain ⟨hb, hn, _⟩ := heq
  subst hn
  have hbody : body = ["", "\x1b[30;47ma\x1b[0K\x1b[0m\r", "\n"] :=
    List.append_cancel_right hb
  have h4 := h3 0 "a" (by decide) (by decide) (by decide) (by decide)
  refine ⟨body, 1, d1, h1, ?_⟩
  rw [hbody] at h4 ⊢
  exact (List.prefix_append ["", "\x1b[30;47ma\x1b[0K\x1b[0m\r"] ["\n"]).isInfix


/-! ## Runes and bytes -/

theorem char_ofNat_toNat (c : Char) (n : Nat) (h : n = c.toNat) : Char.ofNat n = c := by
  subst h; exact Char.ofNat_toNat c

theorem char_valid (c : Char) :
    c.toNat < 0xD800 ∨ (0xDFFF < c.toNat ∧ c.toNat < 0x110000) := c.valid

theorem isCont_mod (n : Nat) : isCont (0x80 + n % 64) = true := by
  have := Nat.mod_lt n (by decide : 64 > 0)
  simp only [isCont, Bool.and_eq_true, decide_eq_true_eq]
  omega

/-- Reading back the bytes of a rune gives the rune, and its bytes are
passed over. -/
theorem decodeFrom_encodeRune (c : Char) (rest : List Nat) :
    decodeFrom (encodeRune c ++ rest) 0 = c :: decodeFrom rest 0 := by
  have hv := char_valid c
  unfold encodeRune
  simp only []
  split
  · rename_i h1
    have hd : decodeRune (c.toNat :: rest) = (c, 1) := by
      simp only [decodeRune]
      rw [if_pos (by omega), char_ofNat_toNat c _ rfl]
    show decodeFrom (c.toNat :: rest) 0 = _
    rw [decodeFrom, hd]
    rfl
  · rename_i h1
    split
    · rename_i h2
      have hd : decodeRune ((0xC0 + c.toNat / 64) :: (0x80 + c.toNat % 64) :: rest) = (c, 2) := by
        rw [decodeRune, if_neg (by omega), if_pos (by omega)]
        simp only [isCont_mod, if_true]
        rw [char_ofNat_toNat c _ (by omega)]
      show decodeFrom ((0xC0 + c.toNat / 64) :: (0x80 + c.toNat % 64) :: rest) 0 = _
      rw [decodeFrom, hd]
      rfl
    · rename_i h2
      split
      · rename_i h3
        have hd : decodeRune ((0xE0 + c.toNat / 4096) :: (0x80 + c.toNat / 64 % 64) ::
            (0x80 + c.toNat % 64) :: rest) = (c, 3) := by
          rw [decodeRune, if_neg (by omega), if_neg (by omega), if_pos (by omega)]
          simp only [isCont_mod, and_true]
          rw [if_pos (by constructor <;> split <;> omega)]
          rw [char_ofNat_toNat c _ (by omega)]
        show decodeFrom ((0xE0 + c.toNat / 4096) :: (0x80 + c.toNat / 64 % 64) ::
          (0x80 + c.toNat % 64) :: rest) 0 = _
        rw [decodeFrom, hd]
        rfl
      · rename_i h3
        have hd : decodeRune ((0xF0 + c.toNat / 262144) :: (0x80 + c.toNat / 4096 % 64) ::
            (0x80 + c.toNat / 64 % 64) :: (0x80 + c.toNat % 64) :: rest) = (c, 4) := by
          rw [decodeRune, if_neg (by omega), if_neg (by omega), if_neg (by omega),
            if_pos (by omega)]
          simp only [isCont_mod, and_true]
          rw [if_pos (by constructor <;> split <;> omega)]
          rw [char_ofNat_toNat c _ (by omega)]
        show decodeFrom ((0xF0 + c.toNat / 262144) :: (0x80 + c.toNat / 4096 % 64) ::
          (0x80 + c.toNat / 64 % 64) :: (0x80 + c.toNat % 64) :: rest) 0 = _
        rw [decodeFrom, hd]
        rfl

/-- The conversion to runes undoes the conversion to bytes. -/
theorem decodeRunes_encodeRunes (cs : List Char) : decodeRunes (encodeRunes cs) = cs := by
  unfold decodeRunes
  induction cs with
  | nil => rfl
  | cons c cs ih =>
    have : encodeRunes (c :: cs) = encodeRune c ++ encodeRunes cs := by
      simp [encodeRunes]
    rw [this, decodeFrom_encodeRune, ih]


theorem encodeRunes_append (xs ys : List Char) :
    encodeRunes (xs ++ ys) = encodeRunes xs ++ encodeRunes ys := by
  simp [encodeRunes]

/-- For the bytes of a text, `truncateAnsi` returns the bytes of what its
loop appends for the runes of the text. -/
theorem truncateAnsiBytes_encode (RuneWidth : Char → Nat) (text : List Char) (w : Int)
    (tail : List Nat) :
    truncateAnsiBytes RuneWidth (encodeRunes text) w tail =
      encodeRunes (truncFrom RuneWidth w text 0) := by
  unfold truncateAnsiBytes
  rw [decodeRunes_encodeRunes]
  rfl

/-- On the bytes of a line of valid text the function on bytes returns the
bytes of what `truncateAnsi` returns for the text. -/
theorem truncateAnsiBytes_text (RuneWidth : Char → Nat) (line : String) (w : Int)
    (tail : List Nat) (tail1 : String) :
    truncateAnsiBytes RuneWidth (encodeRunes line.data) w tail =
      encodeRunes (truncateAnsi RuneWidth line w tail1).data := by
  rw [truncateAnsiBytes_encode]
  rfl

/-- C13 (amended). For every line that is valid UTF-8, the bytes of a
text, and holds no escape character, and every width `w ≥ 0`:
`truncateAnsi(line, w)` is the bytes of a prefix of the text in whole
runes, so a prefix of the line; the display width of that prefix is at most
`w`, and every prefix of the text of display width at most `w` is a prefix
of it; a line of display width at most `w` is returned unchanged. -/
theorem C13_longest_prefix (RuneWidth : Char → Nat) (line : List Nat) (text : List Char)
    (w : Int) (tail : List Nat)
    (hline : line = encodeRunes text) (hno : ESC ∉ text) (hw : 0 ≤ w) :
    ∃ out, truncateAnsiBytes RuneWidth line w tail = encodeRunes out ∧
      out <+: text ∧ truncateAnsiBytes RuneWidth line w tail <+: line ∧
      (displayWidth RuneWidth out : Int) ≤ w ∧
      (∀ p, p <+: text → (displayWidth RuneWidth p : Int) ≤ w → p <+: out) ∧
      ((displayWidth RuneWidth text : Int) ≤ w →
        truncateAnsiBytes RuneWidth line w tail = line) := by
  subst hline
  obtain ⟨h1, h2, h3⟩ := truncFrom_prefix RuneWidth w text 0 hno
  rw [truncateAnsiBytes_encode]
  refine ⟨truncFrom RuneWidth w text 0, rfl, h1, ?_, by have := h2 hw; omega,
    fun p hp hpw => h3 p hp (by omega), ?_⟩
  · obtain ⟨r, hr⟩ := h1
    refine ⟨encodeRunes r, ?_⟩
    rw [← encodeRunes_append, hr]
  · intro hfit
    have h4 := h3 text (List.prefix_refl _) (by omega)
    rw [List.IsPrefix.eq_of_length_le h1 h4.length_le]

/-- The line `caf` followed by the byte `0xE9`, which is not valid UTF-8,
has no escape character and display width 5, yet at width 10 the result
ends in the three bytes of U+FFFD: it is not the line and not a prefix of
it. -/
theorem C13_counterexample :
    ESC ∉ decodeRunes [0x63, 0x61, 0x66, 0xE9] ∧
    (displayWidth exampleWidth (decodeRunes [0x63, 0x61, 0x66, 0xE9]) : Int) ≤ 10 ∧
    truncateAnsiBytes exampleWidth [0x63, 0x61, 0x66, 0xE9] 10 []
      = [0x63, 0x61, 0x66, 0xEF, 0xBF, 0xBD] ∧
    truncateAnsiBytes exampleWidth [0x63, 0x61, 0x66, 0xE9] 10 [] ≠ [0x63, 0x61, 0x66, 0xE9] ∧
    ¬ (truncateAnsiBytes exampleWidth [0x63, 0x61, 0x66, 0xE9] 10 []
        <+: [0x63, 0x61, 0x66, 0xE9]) := by
  decide

/-- C13 (amended) at the bytes of `ab` followed by a wide rune and `c`,
width 3: the wide rune is left out whole. -/
theorem C13_witness :
    encodeRunes "ab世c".data = [0x61, 0x62, 0xE4, 0xB8, 0x96, 0x63] ∧
    truncateAnsiBytes exampleWidth [0x61, 0x62, 0xE4, 0xB8, 0x96, 0x63] 3 [] = [0x61, 0x62] ∧
    ∃ out, truncateAnsiBytes exampleWidth [0x61, 0x62, 0xE4, 0xB8, 0x96, 0x63] 3 []
        = encodeRunes out ∧ out <+: "ab世c".data ∧
      (displayWidth exampleWidth out : Int) ≤ 3 := by
  obtain ⟨out, h1, h2, _, h4, _⟩ := C13_longest_prefix exampleWidth
    [0x61, 0x62, 0xE4, 0xB8, 0x96, 0x63] "ab世c".data 3 [] (by decide) (by decide) (by decide)
  exact ⟨by decide, by decide, out, h1, h2, h4⟩

end Cho
